import Mathlib

/-!
Verification of the DFA subset-construction compiler (`regexp/dfa.go`).

The Go source is shallowly embedded: the instruction program is a list of
tagged instructions, the sparse index set is modelled by its insertion-ordered
duplicate-free dense list, and the recursive epsilon closure `dfa.add`
(which terminates in Go through the membership check) is defined with an
explicit fuel parameter that is proved sufficient.
-/

set_option maxHeartbeats 1000000
set_option maxRecDepth 8000

/-- One instruction of the compiled program (`inst` in the source, with its
`op` tag and payload fields flattened into a tagged variant). -/
inductive inst where
  | OpJmp (jmpTo : Nat)
  | OpSplit (splitA splitB : Nat)
  | OpRange (rangeStart rangeEnd : Nat)
  | OpMatch
deriving DecidableEq

/-- A compiled program: an ordered, 0-indexed instruction sequence (`prog`). -/
abbrev prog := List inst

/-- Model of `sparseSet.Add`: append to the dense (insertion) order if absent, else
no-op.  The sparse set is modelled by its dense list, which the Go invariant
keeps duplicate-free. -/
def ssAdd (s : List Nat) (ip : Nat) : List Nat :=
  if ip ∈ s then s else s ++ [ip]

/-- Model of `dfa.add`, fuel-indexed: if `ip` is present, stop; otherwise record `ip`
and recurse through `Jmp`/`Split` targets (left branch first).  Fuel only
bounds the recursion depth; `addF_stable` shows `p.length + 1` always
suffices, so `dfaAdd` below is the function computed by the Go recursion. -/
def addF (p : prog) : Nat → List Nat → Nat → List Nat
  | 0, set, _ => set
  | fuel+1, set, ip =>
    if ip ∈ set then set
    else
      match p.get? ip with
      | some (.OpJmp t) => addF p fuel (set ++ [ip]) t
      | some (.OpSplit a b) => addF p fuel (addF p fuel (set ++ [ip]) a) b
      | _ => set ++ [ip]

/-- Model of `dfa.add`: the epsilon-closure step of the source, with the always
sufficient fuel `p.length + 1`. -/
def dfaAdd (p : prog) (set : List Nat) (ip : Nat) : List Nat :=
  addF p (p.length + 1) set ip

/-- Number of in-bounds instruction indices not yet in `set`: the termination
measure of the closure recursion. -/
def missing (p : prog) (set : List Nat) : Nat :=
  ((Finset.range p.length).filter (fun j => j ∉ set)).card

/-- One epsilon edge of the instruction graph: a `Jmp` goes to its target, a
`Split` goes to either branch.  `Range`/`Match` (and out-of-bounds indices)
have no outgoing epsilon edges. -/
def edge (p : prog) (i j : Nat) : Prop :=
  p.get? i = some (.OpJmp j) ∨ (∃ b, p.get? i = some (.OpSplit j b)) ∨
    (∃ a, p.get? i = some (.OpSplit a j))

/-- Epsilon reachability through `Jmp`/`Split` edges. -/
inductive reaches (p : prog) : Nat → Nat → Prop
  | refl (i : Nat) : reaches p i i
  | step {i j k : Nat} : edge p i j → reaches p j k → reaches p i k

/-- Epsilon reachability along a path all of whose nodes avoid `set`. -/
inductive reachAvoid (p : prog) (set : List Nat) : Nat → Nat → Prop
  | refl (i : Nat) (h : i ∉ set) : reachAvoid p set i i
  | step {i j k : Nat} (h : i ∉ set) : edge p i j → reachAvoid p set j k →
      reachAvoid p set i k

/-- A set closed under epsilon edges. -/
def closedSet (p : prog) (S : List Nat) : Prop :=
  ∀ z ∈ S, ∀ w, edge p z w → w ∈ S

/-- The loop body of `dfa.run`: a `Match` member raises the match flag, a
`Range` member covering byte `b` closes over its successor `ip + 1` into the
target set, every other member contributes nothing. -/
def runStep (p : prog) (b : Nat) (acc : List Nat × Bool) (ip : Nat) :
    List Nat × Bool :=
  match p.get? ip with
  | some .OpMatch => (acc.1, true)
  | some (.OpRange lo hi) =>
      if lo ≤ b ∧ b ≤ hi then (dfaAdd p acc.1 (ip + 1), acc.2) else acc
  | _ => acc

/-- Model of `dfa.run`: iterate over the (insertion-ordered) members of the from-set,
producing the cleared-and-refilled to-set and the was-match flag. -/
def dfaRun (p : prog) (fromS : List Nat) (b : Nat) : List Nat × Bool :=
  fromS.foldl (runStep p b) ([], false)

/-- Whether instruction `ip` is a `Match`. -/
def isMatchInst (p : prog) (ip : Nat) : Bool :=
  match p.get? ip with
  | some .OpMatch => true
  | _ => false

/-- Whether all `Jmp`/`Split` targets of the program are in bounds. -/
def inBounds (p : prog) : Bool :=
  p.all fun i =>
    match i with
    | .OpJmp t => decide (t < p.length)
    | .OpSplit a b => decide (a < p.length) && decide (b < p.length)
    | _ => true

/-- Example A of the spec: `[Range(97,97), Match]`. -/
def pExampleA : prog := [.OpRange 97 97, .OpMatch]

/-- A program for `(a)*`: `[Split(1,3), Range(97,97), Jmp(0), Match]`, whose
DFA transitions from the start state back to itself on byte 97. -/
def pAStar : prog := [.OpSplit 1 3, .OpRange 97 97, .OpJmp 0, .OpMatch]

/-- Constant `StateLimit`: the maximum number of states allowed. -/
def StateLimit : Nat := 10000

/-- One DFA state (`state` in the source): the ordered significant
instruction indices, the 256-slot transition table (`none` = reject), and
the match flag (Go field `match`). -/
structure St where
  insts : List Nat
  next : List (Option Nat)
  matchFlag : Bool
deriving DecidableEq

instance : Inhabited St := ⟨⟨[], [], false⟩⟩

/-- The builder (`dfaBuilder`): the DFA states built so far plus the
signature cache.  The Go cache keys states by `fmt.Sprintf("%v", insts)`,
which is injective on index lists, so the cache is modelled as an
association list keyed by the signature itself. -/
structure Builder where
  states : List St
  cache : List (List Nat × Nat)
deriving DecidableEq

/-- Association-list lookup for the signature cache. -/
def cacheLookup : List (List Nat × Nat) → List Nat → Option Nat
  | [], _ => none
  | q :: rest, k => if q.1 = k then some q.2 else cacheLookup rest k

/-- The significant members of a set, in insertion order: only indices of
`Range`/`Match` instructions survive the filter in `cachedState`. -/
def sigInsts (p : prog) (set : List Nat) : List Nat :=
  set.filter fun ip =>
    match p.get? ip with
    | some (.OpRange _ _) => true
    | some .OpMatch => true
    | _ => false

/-- Whether the set holds a `Match` instruction (the `isMatch` flag computed
while filtering in `cachedState`). -/
def sigIsMatch (p : prog) (set : List Nat) : Bool :=
  set.any (isMatchInst p)

/-- Model of `dfaBuilder.cachedState`: filter the set to its significant signature;
an empty signature yields no state (`nil`); otherwise intern the ordered
signature through the cache, appending a fresh state (all-reject table,
computed match flag) on a miss. -/
def cachedState (p : prog) (bld : Builder) (set : List Nat) :
    Builder × Option Nat :=
  let insts := sigInsts p set
  if insts.isEmpty then (bld, none)
  else
    match cacheLookup bld.cache insts with
    | some v => (bld, some v)
    | none =>
        let newV := bld.states.length
        (⟨bld.states ++ [⟨insts, List.replicate 256 none, sigIsMatch p set⟩],
          (insts, newV) :: bld.cache⟩, some newV)

/-- Model of `dfaBuilder.runState`: rebuild state `s`'s signature into the scratch
set, byte-step it, intern the target set, and record the result in slot `b`
of `s`'s transition table. -/
def runState (p : prog) (bld : Builder) (s : Nat) (b : Nat) :
    Builder × Option Nat :=
  let cur := (bld.states.getD s default).insts.foldl ssAdd []
  let nextSet := (dfaRun p cur b).1
  let res := cachedState p bld nextSet
  let st := res.1.states.getD s default
  (⟨res.1.states.set s { st with next := st.next.set b res.2 }, res.1.cache⟩,
    res.2)

/-- One iteration of the byte loop in `dfaBuilder.build`: run the state on
byte `b`, push the target if it is new (recording it as seen), then enforce
the state limit.  `Except.error` carries the builder at the moment of the
abort (the Go code returns `nil, ErrTooManyStates`). -/
def stepByte (p : prog) (s : Nat) (acc : Builder × List Nat × List (Option Nat))
    (b : Nat) : Except Builder (Builder × List Nat × List (Option Nat)) :=
  let bld' := (runState p acc.1 s b).1
  let ns := (runState p acc.1 s b).2
  let seenStack :=
    match ns with
    | some v => if v ∈ acc.2.1 then (acc.2.1, acc.2.2)
                else (v :: acc.2.1, some v :: acc.2.2)
    | none => (acc.2.1, acc.2.2)
  if bld'.states.length > StateLimit then Except.error bld'
  else Except.ok (bld', seenStack)

/-- The 256-byte loop body of `dfaBuilder.build` for one popped state. -/
def processState (p : prog) (s : Nat)
    (acc : Builder × List Nat × List (Option Nat)) :
    Except Builder (Builder × List Nat × List (Option Nat)) :=
  (List.range 256).foldlM (stepByte p s) acc

/-- The worklist loop of `dfaBuilder.build`.  The stack holds the pushed
`cachedState` results (top first); popping `nil` — the empty stack or the
initial nil pointer — ends the loop with success.  The final `List Nat`
argument is a ghost trace of the states popped so far, carried only for
specification; `none` marks fuel exhaustion, which `buildLoop_total` below
rules out for the fuel used by `buildT`. -/
def buildLoop (p : prog) :
    Nat → List (Option Nat) → List Nat → Builder → List Nat →
    Option (Except Builder Builder × List Nat)
  | 0, _, _, _, _ => none
  | fuel+1, stack, seen, bld, trace =>
    match stack with
    | [] => some (Except.ok bld, trace)
    | none :: _ => some (Except.ok bld, trace)
    | some s :: rest =>
      match processState p s (bld, seen, rest) with
      | .error bldE => some (Except.error bldE, trace ++ [s])
      | .ok (bld', seen', stack') => buildLoop p fuel stack' seen' bld' (trace ++ [s])

/-- Fuel that always suffices for the worklist loop (shown in
`buildLoop_total`). -/
def buildFuel : Nat := StateLimit + 3

/-- Model of `dfaBuilder.build`, instrumented with the ghost pop trace: close over
instruction 0, intern the start closure, and drain the worklist. -/
def buildT (p : prog) : Option (Except Builder Builder × List Nat) :=
  let cur := dfaAdd p [] 0
  let res := cachedState p ⟨[], []⟩ cur
  buildLoop p buildFuel [res.2] [] res.1 []

/-- Projection of `dfaBuilder.build`: the public result — the successfully built DFA's
builder (its `states` are the DFA), or the error case carrying no DFA. -/
def build (p : prog) : Option (Except Builder Builder) :=
  (buildT p).map Prod.fst

/-- Helper `resBuilder`: the builder carried by either outcome (ghost payload in the
error case — Go returns `nil` there). -/
def resBuilder : Except Builder Builder → Builder
  | .ok b => b
  | .error b => b

/-- The cache invariant of the builder: cache keys are distinct, every entry
points at a state carrying exactly that signature, and every state index is
keyed in the cache under its signature. -/
structure BInvC (bld : Builder) : Prop where
  keysNodup : (bld.cache.map Prod.fst).Nodup
  sound : ∀ q ∈ bld.cache, q.2 < bld.states.length ∧
    (bld.states.getD q.2 default).insts = q.1
  complete : ∀ i, i < bld.states.length →
    ((bld.states.getD i default).insts, i) ∈ bld.cache

/-- The to-set computed inside `runState`: byte-step the rebuilt signature of
state `s`. -/
def rsSet (p : prog) (bld : Builder) (s : Nat) (b : Nat) : List Nat :=
  (dfaRun p ((bld.states.getD s default).insts.foldl ssAdd []) b).1

/-- Whether instruction `ip` is significant (a `Range` or `Match`): exactly
the instructions that survive the `cachedState` filter. -/
def isSig (p : prog) (ip : Nat) : Bool :=
  match p.get? ip with
  | some (.OpRange _ _) => true
  | some .OpMatch => true
  | _ => false

/-- Whether some member of `l` is a `Range` instruction covering byte `b`. -/
def coversB (p : prog) (l : List Nat) (b : Nat) : Bool :=
  l.any fun ip =>
    match p.get? ip with
    | some (.OpRange lo hi) => decide (lo ≤ b) && decide (b ≤ hi)
    | _ => false

/-- The index interned for the closure of instruction 0: the start state
(`none` when the closure holds no significant instruction). -/
def startOf (p : prog) : Option Nat :=
  (cachedState p ⟨[], []⟩ (dfaAdd p [] 0)).2

/-- The C10 invariant: signatures hold only significant (in-bounds
`Range`/`Match`) indices, and every non-reject transition entry is a valid
state index. -/
def Inv10 (p : prog) (bld : Builder) : Prop :=
  ∀ st ∈ bld.states, (∀ ip ∈ st.insts, isSig p ip = true) ∧
    (∀ e ∈ st.next, ∀ v, e = some v → v < bld.states.length)

/-- The C7 invariant: a byte not covered by any `Range` of a state's
signature has an explicit reject (`none`) entry. -/
def Inv7 (p : prog) (bld : Builder) : Prop :=
  ∀ st ∈ bld.states, ∀ b, coversB p st.insts b = false →
    st.next.getD b none = none

instance {α β : Type} [DecidableEq α] [DecidableEq β] :
    DecidableEq (Except α β) := fun x y =>
  match x, y with
  | .ok a, .ok b =>
      if h : a = b then isTrue (by rw [h]) else isFalse (fun hc => by
        injection hc with h'
        exact h h')
  | .error a, .error b =>
      if h : a = b then isTrue (by rw [h]) else isFalse (fun hc => by
        injection hc with h'
        exact h h')
  | .ok _, .error _ => isFalse (fun hc => by cases hc)
  | .error _, .ok _ => isFalse (fun hc => by cases hc)

/-- The DFA built from `pExampleA`: a non-matching start state that steps to
an accepting all-reject state on byte 97. -/
def bldExA : Builder :=
  ⟨[⟨[0], (List.replicate 256 none).set 97 (some 1), false⟩,
    ⟨[1], List.replicate 256 none, true⟩],
    [([1], 1), ([0], 0)]⟩

/-- The DFA built from `pAStar`: one accepting state that loops to itself on
byte 97. -/
def bldAStar : Builder :=
  ⟨[⟨[1, 3], (List.replicate 256 none).set 97 (some 0), true⟩], [([1, 3], 0)]⟩

/-- Relation between two snapshots of the builder's state list taken during
one build: states are only ever appended, and a state's signature (`insts`)
is never changed after creation — although its transition table is filled in
place, so the earlier list is generally not a list-prefix of the later one. -/
def sigPreserved (s1 s2 : List St) : Prop :=
  s1.length ≤ s2.length ∧
  ∀ i, i < s1.length → (s2.getD i default).insts = (s1.getD i default).insts

/-- Example B of the spec, `a|b`:
`[Split(1,3), Range(97,97), Jmp(4), Range(98,98), Match]`. -/
def pExB : prog := [.OpSplit 1 3, .OpRange 97 97, .OpJmp 4, .OpRange 98 98, .OpMatch]

/-- The builder of the Example B build at the moment of the byte-97 intern:
the start state is created, bytes 0..96 of it are filled with reject. -/
def bldB1 : Builder := ⟨[⟨[1, 3], List.replicate 256 none, false⟩], [([1, 3], 0)]⟩

/-- The builder of the Example B build at the moment of the byte-98 intern:
byte 97 has been processed, so the start state's table holds a non-reject
entry and the accepting state `[4]` exists. -/
def bldB2 : Builder :=
  ⟨[⟨[1, 3], (List.replicate 256 none).set 97 (some 1), false⟩,
    ⟨[4], List.replicate 256 none, true⟩], [([4], 1), ([1, 3], 0)]⟩

theorem ssAdd_of_mem {s : List Nat} {ip : Nat} (h : ip ∈ s) : ssAdd s ip = s := by
  simp [ssAdd, h]

theorem addF_succ_of_mem {p : prog} {n : Nat} {set : List Nat} {ip : Nat}
    (h : ip ∈ set) : addF p (n + 1) set ip = set := by
  simp [addF, h]

theorem addF_succ_jmp {p : prog} {n : Nat} {set : List Nat} {ip t : Nat}
    (hmem : ip ∉ set) (hget : p.get? ip = some (.OpJmp t)) :
    addF p (n + 1) set ip = addF p n (set ++ [ip]) t := by
  simp only [addF, hmem, if_false, hget]

theorem addF_succ_split {p : prog} {n : Nat} {set : List Nat} {ip a b : Nat}
    (hmem : ip ∉ set) (hget : p.get? ip = some (.OpSplit a b)) :
    addF p (n + 1) set ip = addF p n (addF p n (set ++ [ip]) a) b := by
  simp only [addF, hmem, if_false, hget]

theorem addF_succ_none {p : prog} {n : Nat} {set : List Nat} {ip : Nat}
    (hmem : ip ∉ set) (hget : p.get? ip = none) :
    addF p (n + 1) set ip = set ++ [ip] := by
  simp only [addF, hmem, if_false, hget]

theorem addF_succ_range {p : prog} {n : Nat} {set : List Nat} {ip lo hi : Nat}
    (hmem : ip ∉ set) (hget : p.get? ip = some (.OpRange lo hi)) :
    addF p (n + 1) set ip = set ++ [ip] := by
  simp only [addF, hmem, if_false, hget]

theorem addF_succ_match {p : prog} {n : Nat} {set : List Nat} {ip : Nat}
    (hmem : ip ∉ set) (hget : p.get? ip = some .OpMatch) :
    addF p (n + 1) set ip = set ++ [ip] := by
  simp only [addF, hmem, if_false, hget]

theorem ssAdd_of_not_mem {s : List Nat} {ip : Nat} (h : ip ∉ s) :
    ssAdd s ip = s ++ [ip] := by
  simp [ssAdd, h]

theorem addF_pref (p : prog) :
    ∀ fuel set ip, set <+: addF p fuel set ip := by
  intro fuel
  induction fuel with
  | zero => intro set ip; simp [addF]
  | succ n ih =>
    intro set ip
    by_cases h : ip ∈ set
    · simp [addF, h]
    · simp only [addF, h, if_false]
      have hbase : set <+: set ++ [ip] := List.prefix_append _ _
      cases hget : p.get? ip with
      | none => simpa [hget] using hbase
      | some i =>
        cases i with
        | OpJmp t => simpa [hget] using hbase.trans (ih (set ++ [ip]) t)
        | OpSplit a b =>
          simpa [hget] using
            hbase.trans ((ih (set ++ [ip]) a).trans (ih _ b))
        | OpRange lo hi => simpa [hget] using hbase
        | OpMatch => simpa [hget] using hbase

theorem addF_subset (p : prog) (fuel : Nat) (set : List Nat) (ip : Nat) :
    set ⊆ addF p fuel set ip :=
  (addF_pref p fuel set ip).subset

theorem missing_le (p : prog) (set : List Nat) : missing p set ≤ p.length := by
  calc ((Finset.range p.length).filter (fun j => j ∉ set)).card
      ≤ (Finset.range p.length).card := Finset.card_filter_le _ _
    _ = p.length := Finset.card_range _

theorem missing_mono (p : prog) {s t : List Nat} (h : s ⊆ t) :
    missing p t ≤ missing p s := by
  apply Finset.card_le_card
  intro x hx
  simp only [Finset.mem_filter, Finset.mem_range] at hx ⊢
  exact ⟨hx.1, fun hxs => hx.2 (h hxs)⟩

theorem missing_append_lt (p : prog) {set : List Nat} {ip : Nat}
    (hip : ip < p.length) (hmem : ip ∉ set) :
    missing p (set ++ [ip]) < missing p set := by
  apply Finset.card_lt_card
  constructor
  · intro x hx
    simp only [Finset.mem_filter, Finset.mem_range, List.mem_append,
      List.mem_singleton] at hx ⊢
    exact ⟨hx.1, fun hxs => hx.2 (Or.inl hxs)⟩
  · intro hsub
    have h1 : ip ∈ (Finset.range p.length).filter (fun j => j ∉ set) := by
      simp [hip, hmem]
    have h2 := hsub h1
    simp [List.mem_append] at h2

theorem get?_lt_length {p : prog} {ip : Nat} {i : inst} (h : p.get? ip = some i) :
    ip < p.length :=
  List.get?_eq_some.mp h |>.1

theorem addF_stable (p : prog) :
    ∀ fuel set ip, missing p set < fuel →
      addF p fuel set ip = addF p (fuel + 1) set ip := by
  intro fuel
  induction fuel with
  | zero => intro set ip h; omega
  | succ n ih =>
    intro set ip h
    by_cases hmem : ip ∈ set
    · rw [addF_succ_of_mem hmem, addF_succ_of_mem hmem]
    · cases hget : p.get? ip with
      | none => rw [addF_succ_none hmem hget, addF_succ_none hmem hget]
      | some i =>
        have hip : ip < p.length := get?_lt_length hget
        have hlt : missing p (set ++ [ip]) < n := by
          have := missing_append_lt p hip hmem
          omega
        cases i with
        | OpJmp t =>
          rw [addF_succ_jmp hmem hget, addF_succ_jmp hmem hget]
          exact ih (set ++ [ip]) t hlt
        | OpSplit a b =>
          rw [addF_succ_split hmem hget, addF_succ_split hmem hget,
            ← ih (set ++ [ip]) a hlt]
          have hsub : set ++ [ip] ⊆ addF p n (set ++ [ip]) a :=
            addF_subset p n (set ++ [ip]) a
          have hlt2 : missing p (addF p n (set ++ [ip]) a) < n :=
            lt_of_le_of_lt (missing_mono p hsub) hlt
          exact ih _ b hlt2
        | OpRange lo hi => rw [addF_succ_range hmem hget, addF_succ_range hmem hget]
        | OpMatch => rw [addF_succ_match hmem hget, addF_succ_match hmem hget]

theorem addF_stable_of_le (p : prog) {fuel fuel' : Nat} (set : List Nat) (ip : Nat)
    (h : missing p set < fuel) (hle : fuel ≤ fuel') :
    addF p fuel set ip = addF p fuel' set ip := by
  induction fuel' with
  | zero => omega
  | succ m ih =>
    rcases Nat.lt_or_ge fuel (m + 1) with hlt | hge
    · have hm : fuel ≤ m := by omega
      rw [ih hm]
      exact addF_stable p m set ip (lt_of_lt_of_le h hm)
    · have : fuel = m + 1 := by omega
      subst this; rfl

theorem dfaAdd_eq_addF (p : prog) {fuel : Nat} (set : List Nat) (ip : Nat)
    (h : p.length + 1 ≤ fuel) :
    addF p fuel set ip = dfaAdd p set ip := by
  have h1 : missing p set < p.length + 1 :=
    Nat.lt_succ_of_le (missing_le p set)
  rw [dfaAdd, ← addF_stable_of_le p set ip h1 h]

theorem dfaAdd_of_mem (p : prog) {set : List Nat} {ip : Nat} (h : ip ∈ set) :
    dfaAdd p set ip = set := by
  simp [dfaAdd, addF, h]

theorem dfaAdd_jmp (p : prog) {set : List Nat} {ip t : Nat} (hmem : ip ∉ set)
    (hget : p.get? ip = some (.OpJmp t)) :
    dfaAdd p set ip = dfaAdd p (set ++ [ip]) t := by
  have hip : ip < p.length := get?_lt_length hget
  have hlt : missing p (set ++ [ip]) < p.length := by
    have h1 := missing_append_lt p hip hmem
    have h2 := missing_le p set
    omega
  show addF p (p.length + 1) set ip = _
  rw [addF_succ_jmp hmem hget]
  exact addF_stable_of_le p (set ++ [ip]) t hlt (Nat.le_succ _)

theorem dfaAdd_split (p : prog) {set : List Nat} {ip a b : Nat} (hmem : ip ∉ set)
    (hget : p.get? ip = some (.OpSplit a b)) :
    dfaAdd p set ip = dfaAdd p (dfaAdd p (set ++ [ip]) a) b := by
  have hip : ip < p.length := get?_lt_length hget
  have hlt : missing p (set ++ [ip]) < p.length := by
    have h1 := missing_append_lt p hip hmem
    have h2 := missing_le p set
    omega
  show addF p (p.length + 1) set ip = _
  rw [addF_succ_split hmem hget,
    addF_stable_of_le p (set ++ [ip]) a hlt (Nat.le_succ _)]
  have hsub : set ++ [ip] ⊆ addF p (p.length + 1) (set ++ [ip]) a :=
    addF_subset p (p.length + 1) (set ++ [ip]) a
  have hlt2 : missing p (addF p (p.length + 1) (set ++ [ip]) a) < p.length :=
    lt_of_le_of_lt (missing_mono p hsub) hlt
  exact addF_stable_of_le p _ b hlt2 (Nat.le_succ _)

theorem dfaAdd_terminal (p : prog) {set : List Nat} {ip : Nat} (hmem : ip ∉ set)
    (hterm : ∀ t a b, p.get? ip ≠ some (.OpJmp t) ∧ p.get? ip ≠ some (.OpSplit a b)) :
    dfaAdd p set ip = set ++ [ip] := by
  show addF p (p.length + 1) set ip = _
  simp only [addF, hmem, if_false]
  cases hget : p.get? ip with
  | none => rfl
  | some i =>
    cases i with
    | OpJmp t => exact absurd hget (hterm t 0 0).1
    | OpSplit a b => exact absurd hget (hterm 0 a b).2
    | OpRange lo hi => rfl
    | OpMatch => rfl

theorem dfaAdd_nodup (p : prog) :
    ∀ fuel {set : List Nat} (ip : Nat), set.Nodup → (addF p fuel set ip).Nodup := by
  intro fuel
  induction fuel with
  | zero => intro set ip h; simpa [addF] using h
  | succ n ih =>
    intro set ip h
    by_cases hmem : ip ∈ set
    · simpa [addF, hmem] using h
    · have happ : (set ++ [ip]).Nodup := by
        simp [List.nodup_append, h, hmem]
      simp only [addF, hmem, if_false]
      cases hget : p.get? ip with
      | none => simpa using happ
      | some i =>
        cases i with
        | OpJmp t => exact ih t happ
        | OpSplit a b => exact ih b (ih a happ)
        | OpRange lo hi => simpa using happ
        | OpMatch => simpa using happ

theorem dfaAdd_self_mem (p : prog) (set : List Nat) (ip : Nat) :
    ip ∈ dfaAdd p set ip := by
  by_cases hmem : ip ∈ set
  · rw [dfaAdd_of_mem p hmem]; exact hmem
  · show ip ∈ addF p (p.length + 1) set ip
    simp only [addF, hmem, if_false]
    have hbase : ip ∈ set ++ [ip] := by simp
    cases hget : p.get? ip with
    | none => simpa using hbase
    | some i =>
      cases i with
      | OpJmp t => exact addF_subset p _ _ t hbase
      | OpSplit a b => exact addF_subset p _ _ b (addF_subset p _ _ a hbase)
      | OpRange lo hi => simpa using hbase
      | OpMatch => simpa using hbase

theorem reachAvoid_reaches {p : prog} {set : List Nat} {i y : Nat}
    (h : reachAvoid p set i y) : reaches p i y := by
  induction h with
  | refl i _ => exact reaches.refl i
  | step _ e _ ih => exact reaches.step e ih

theorem reachAvoid_anti {p : prog} {s t : List Nat} (hsub : ∀ x ∈ s, x ∈ t)
    {i y : Nat} (h : reachAvoid p t i y) : reachAvoid p s i y := by
  induction h with
  | refl i hi => exact reachAvoid.refl i (fun hmem => hi (hsub i hmem))
  | step hi e _ ih => exact reachAvoid.step (fun hmem => hi (hsub _ hmem)) e ih

theorem reachAvoid_not_mem_start {p : prog} {set : List Nat} {i y : Nat}
    (h : reachAvoid p set i y) : i ∉ set := by
  cases h with
  | refl _ hi => exact hi
  | step hi _ _ => exact hi

theorem edge_jmp {p : prog} {ip t j : Nat} (hget : p.get? ip = some (.OpJmp t))
    (he : edge p ip j) : j = t := by
  unfold edge at he
  rw [hget] at he
  simp only [Option.some.injEq, inst.OpJmp.injEq] at he
  rcases he with h | ⟨b, h⟩ | ⟨a, h⟩
  · exact h.symm
  · cases h
  · cases h

theorem edge_split {p : prog} {ip a b j : Nat}
    (hget : p.get? ip = some (.OpSplit a b)) (he : edge p ip j) :
    j = a ∨ j = b := by
  unfold edge at he
  rw [hget] at he
  simp only [Option.some.injEq, inst.OpSplit.injEq] at he
  rcases he with h | ⟨b', h1, h2⟩ | ⟨a', h1, h2⟩
  · cases h
  · exact Or.inl h1.symm
  · exact Or.inr h2.symm

theorem edge_none {p : prog} {ip j : Nat} (hget : p.get? ip = none)
    (he : edge p ip j) : False := by
  unfold edge at he
  rw [hget] at he
  simp at he

theorem edge_range {p : prog} {ip lo hi j : Nat}
    (hget : p.get? ip = some (.OpRange lo hi)) (he : edge p ip j) : False := by
  unfold edge at he
  rw [hget] at he
  simp at he

theorem edge_match {p : prog} {ip j : Nat} (hget : p.get? ip = some .OpMatch)
    (he : edge p ip j) : False := by
  unfold edge at he
  rw [hget] at he
  simp at he

theorem dfaAdd_none (p : prog) {set : List Nat} {ip : Nat} (hmem : ip ∉ set)
    (hget : p.get? ip = none) : dfaAdd p set ip = set ++ [ip] :=
  addF_succ_none hmem hget

theorem dfaAdd_range (p : prog) {set : List Nat} {ip lo hi : Nat} (hmem : ip ∉ set)
    (hget : p.get? ip = some (.OpRange lo hi)) : dfaAdd p set ip = set ++ [ip] :=
  addF_succ_range hmem hget

theorem dfaAdd_match (p : prog) {set : List Nat} {ip : Nat} (hmem : ip ∉ set)
    (hget : p.get? ip = some .OpMatch) : dfaAdd p set ip = set ++ [ip] :=
  addF_succ_match hmem hget

/-- Path surgery: a path that avoids `set` either avoids `set ++ [i]` as well,
or its last visit to `i` splits it at `i`. -/
theorem reachAvoid_surgery {p : prog} {set : List Nat} {i a y : Nat}
    (h : reachAvoid p set a y) :
    reachAvoid p (set ++ [i]) a y ∨ y = i ∨
      ∃ j, edge p i j ∧ reachAvoid p (set ++ [i]) j y := by
  induction h with
  | refl a ha =>
    by_cases hai : a = i
    · exact Or.inr (Or.inl hai)
    · exact Or.inl (reachAvoid.refl a (by simp [ha, hai]))
  | step ha e _ ih =>
    rename_i a' b' y' _
    rcases ih with r' | hy | ⟨j, ej, rj⟩
    · by_cases hai : a' = i
      · subst hai
        exact Or.inr (Or.inr ⟨b', e, r'⟩)
      · exact Or.inl (reachAvoid.step (by simp [ha, hai]) e r')
    · exact Or.inr (Or.inl hy)
    · exact Or.inr (Or.inr ⟨j, ej, rj⟩)

/-- Absorption: if every node of `T` outside `S` has its successors inside
`T`, a path avoiding `S` that starts inside `T` stays inside `T`, and one
that starts outside either enters `T` or avoids it entirely. -/
theorem reachAvoid_absorb {p : prog} {S T : List Nat}
    (hT : ∀ z ∈ T, z ∉ S → ∀ w, edge p z w → w ∈ T)
    {b y : Nat} (h : reachAvoid p S b y) :
    (b ∈ T → y ∈ T) ∧ (b ∉ T → y ∈ T ∨ reachAvoid p T b y) := by
  induction h with
  | refl b hb =>
    exact ⟨fun h => h, fun hb' => Or.inr (reachAvoid.refl b hb')⟩
  | step hb e _ ih =>
    rename_i b' c' y' _
    constructor
    · intro hbT
      exact ih.1 (hT b' hbT hb _ e)
    · intro hbT
      by_cases hcT : c' ∈ T
      · exact Or.inl (ih.1 hcT)
      · rcases ih.2 hcT with hyT | r'
        · exact Or.inl hyT
        · exact Or.inr (reachAvoid.step hbT e r')

/-- Every index freshly added by one closure call has all of its epsilon
successors in the result: the recursion never abandons a node before
exploring its edges. -/
theorem dfaAdd_fresh_closed (p : prog) :
    ∀ n set ip, missing p set ≤ n →
      ∀ z, z ∈ dfaAdd p set ip → z ∉ set → ∀ w, edge p z w → w ∈ dfaAdd p set ip := by
  intro n
  induction n with
  | zero =>
    intro set ip hn z hz hzs w he
    by_cases hmem : ip ∈ set
    · rw [dfaAdd_of_mem p hmem] at hz
      exact absurd hz hzs
    · cases hget : p.get? ip with
      | none =>
        rw [dfaAdd_none p hmem hget] at hz ⊢
        have hz' : z = ip := by
          rcases List.mem_append.mp hz with h | h
          · exact absurd h hzs
          · simpa using h
        subst hz'
        exact absurd he (edge_none hget)
      | some i =>
        exfalso
        have hip : ip < p.length := get?_lt_length hget
        have : 0 < missing p set := by
          have h1 := missing_append_lt p hip hmem
          omega
        omega
  | succ n ih =>
    intro set ip hn z hz hzs w he
    by_cases hmem : ip ∈ set
    · rw [dfaAdd_of_mem p hmem] at hz
      exact absurd hz hzs
    · cases hget : p.get? ip with
      | none =>
        rw [dfaAdd_none p hmem hget] at hz ⊢
        have hz' : z = ip := by
          rcases List.mem_append.mp hz with h | h
          · exact absurd h hzs
          · simpa using h
        subst hz'
        exact absurd he (edge_none hget)
      | some i =>
        have hip : ip < p.length := get?_lt_length hget
        have hlt : missing p (set ++ [ip]) ≤ n := by
          have h1 := missing_append_lt p hip hmem
          omega
        cases i with
        | OpJmp t =>
          rw [dfaAdd_jmp p hmem hget] at hz ⊢
          by_cases hz' : z ∈ set ++ [ip]
          · have hzip : z = ip := by
              rcases List.mem_append.mp hz' with h | h
              · exact absurd h hzs
              · simpa using h
            subst hzip
            have : w = t := edge_jmp hget he
            subst this
            exact dfaAdd_self_mem p _ _
          · exact ih (set ++ [ip]) t hlt z hz hz' w he
        | OpSplit a b =>
          rw [dfaAdd_split p hmem hget] at hz ⊢
          have hsub1 : set ++ [ip] ⊆ dfaAdd p (set ++ [ip]) a :=
            addF_subset p _ _ a
          have hltR : missing p (dfaAdd p (set ++ [ip]) a) ≤ n :=
            le_trans (missing_mono p hsub1) hlt
          by_cases hz' : z ∈ set ++ [ip]
          · have hzip : z = ip := by
              rcases List.mem_append.mp hz' with h | h
              · exact absurd h hzs
              · simpa using h
            subst hzip
            rcases edge_split hget he with hw | hw <;> rw [hw]
            · exact addF_subset p _ _ b (dfaAdd_self_mem p _ a)
            · exact dfaAdd_self_mem p _ b
          · by_cases hzR : z ∈ dfaAdd p (set ++ [ip]) a
            · exact addF_subset p _ _ b (ih (set ++ [ip]) a hlt z hzR hz' w he)
            · exact ih _ b hltR z hz hzR w he
        | OpRange lo hi =>
          rw [dfaAdd_range p hmem hget] at hz ⊢
          have hz' : z = ip := by
            rcases List.mem_append.mp hz with h | h
            · exact absurd h hzs
            · simpa using h
          subst hz'
          exact absurd he (edge_range hget)
        | OpMatch =>
          rw [dfaAdd_match p hmem hget] at hz ⊢
          have hz' : z = ip := by
            rcases List.mem_append.mp hz with h | h
            · exact absurd h hzs
            · simpa using h
          subst hz'
          exact absurd he (edge_match hget)

theorem reachAvoid_terminal_iff {p : prog} {set : List Nat} {ip y : Nat}
    (hmem : ip ∉ set) (hterm : ∀ j, edge p ip j → False) :
    reachAvoid p set ip y ↔ y = ip := by
  constructor
  · intro r
    cases r with
    | refl _ _ => rfl
    | step _ e _ => exact absurd e (hterm _)
  · intro h
    subst h
    exact reachAvoid.refl y hmem

/-- Membership characterization of one closure call: the result holds exactly
the old members plus everything epsilon-reachable from `ip` along paths that
avoid the old members. -/
theorem dfaAdd_mem (p : prog) :
    ∀ n set ip y, missing p set ≤ n →
      (y ∈ dfaAdd p set ip ↔ y ∈ set ∨ reachAvoid p set ip y) := by
  intro n
  induction n with
  | zero =>
    intro set ip y hn
    by_cases hmem : ip ∈ set
    · rw [dfaAdd_of_mem p hmem]
      constructor
      · exact Or.inl
      · rintro (h | r)
        · exact h
        · exact absurd hmem (reachAvoid_not_mem_start r)
    · cases hget : p.get? ip with
      | none =>
        rw [dfaAdd_none p hmem hget,
          reachAvoid_terminal_iff hmem (fun j e => edge_none hget e)]
        simp
      | some i =>
        exfalso
        have hip : ip < p.length := get?_lt_length hget
        have := missing_append_lt p hip hmem
        omega
  | succ n ih =>
    intro set ip y hn
    by_cases hmem : ip ∈ set
    · rw [dfaAdd_of_mem p hmem]
      constructor
      · exact Or.inl
      · rintro (h | r)
        · exact h
        · exact absurd hmem (reachAvoid_not_mem_start r)
    · cases hget : p.get? ip with
      | none =>
        rw [dfaAdd_none p hmem hget,
          reachAvoid_terminal_iff hmem (fun j e => edge_none hget e)]
        simp
      | some i =>
        have hip : ip < p.length := get?_lt_length hget
        have hlt : missing p (set ++ [ip]) ≤ n := by
          have := missing_append_lt p hip hmem
          omega
        have hsubset : ∀ x ∈ set, x ∈ set ++ [ip] := fun x hx => by simp [hx]
        cases i with
        | OpJmp t =>
          rw [dfaAdd_jmp p hmem hget]
          have IH := fun y => ih (set ++ [ip]) t y hlt
          constructor
          · intro hy
            rcases (IH y).mp hy with hy' | r
            · rcases List.mem_append.mp hy' with h | h
              · exact Or.inl h
              · right
                have : y = ip := by simpa using h
                subst this
                exact reachAvoid.refl y hmem
            · exact Or.inr (reachAvoid.step hmem (Or.inl hget)
                (reachAvoid_anti hsubset r))
          · rintro (hy | r)
            · exact (IH y).mpr (Or.inl (by simp [hy]))
            · cases r with
              | refl _ _ => exact (IH ip).mpr (Or.inl (by simp))
              | step h' e r' =>
                rename_i j
                have hj : j = t := edge_jmp hget e
                rw [hj] at r'
                rcases reachAvoid_surgery (i := ip) r' with r'' | hy' | ⟨j', e', r''⟩
                · exact (IH y).mpr (Or.inr r'')
                · exact (IH y).mpr (Or.inl (by simp [hy']))
                · have hj' : j' = t := edge_jmp hget e'
                  rw [hj'] at r''
                  exact (IH y).mpr (Or.inr r'')
        | OpSplit a b =>
          rw [dfaAdd_split p hmem hget]
          have hsub1 : set ++ [ip] ⊆ dfaAdd p (set ++ [ip]) a :=
            addF_subset p _ _ a
          have hltR : missing p (dfaAdd p (set ++ [ip]) a) ≤ n :=
            le_trans (missing_mono p hsub1) hlt
          have IHa := fun y => ih (set ++ [ip]) a y hlt
          have IHb := fun y => ih (dfaAdd p (set ++ [ip]) a) b y hltR
          have hfresh : ∀ z ∈ dfaAdd p (set ++ [ip]) a, z ∉ set ++ [ip] →
              ∀ w, edge p z w → w ∈ dfaAdd p (set ++ [ip]) a :=
            dfaAdd_fresh_closed p n (set ++ [ip]) a hlt
          -- entering from `a` or from `b` with a path avoiding `set ++ [ip]`
          -- always lands in the final result
          have keyA : ∀ {y}, reachAvoid p (set ++ [ip]) a y →
              y ∈ dfaAdd p (dfaAdd p (set ++ [ip]) a) b := by
            intro y r
            exact addF_subset p _ _ b ((IHa y).mpr (Or.inr r))
          have keyB : ∀ {y}, reachAvoid p (set ++ [ip]) b y →
              y ∈ dfaAdd p (dfaAdd p (set ++ [ip]) a) b := by
            intro y r
            have habs := reachAvoid_absorb hfresh r
            by_cases hbR : b ∈ dfaAdd p (set ++ [ip]) a
            · exact addF_subset p _ _ b (habs.1 hbR)
            · rcases habs.2 hbR with hyR | r'
              · exact addF_subset p _ _ b hyR
              · exact (IHb y).mpr (Or.inr r')
          constructor
          · intro hy
            rcases (IHb y).mp hy with hyR | r
            · rcases (IHa y).mp hyR with hy' | r
              · rcases List.mem_append.mp hy' with h | h
                · exact Or.inl h
                · right
                  have : y = ip := by simpa using h
                  subst this
                  exact reachAvoid.refl y hmem
              · exact Or.inr (reachAvoid.step hmem (Or.inr (Or.inl ⟨b, hget⟩))
                  (reachAvoid_anti hsubset r))
            · have hsub2 : ∀ x ∈ set, x ∈ dfaAdd p (set ++ [ip]) a :=
                fun x hx => hsub1 (by simp [hx])
              exact Or.inr (reachAvoid.step hmem (Or.inr (Or.inr ⟨a, hget⟩))
                (reachAvoid_anti hsub2 r))
          · rintro (hy | r)
            · exact addF_subset p _ _ b (hsub1 (by simp [hy]))
            · cases r with
              | refl _ _ => exact addF_subset p _ _ b (hsub1 (by simp))
              | step h' e r' =>
                rename_i j
                have hjab : j = a ∨ j = b := edge_split hget e
                have hland : ∀ j', j' = a ∨ j' = b →
                    reachAvoid p (set ++ [ip]) j' y →
                    y ∈ dfaAdd p (dfaAdd p (set ++ [ip]) a) b := by
                  rintro j' (rfl | rfl) r''
                  · exact keyA r''
                  · exact keyB r''
                rcases reachAvoid_surgery (i := ip) r' with r'' | hy' | ⟨j', e', r''⟩
                · exact hland j hjab r''
                · subst hy'
                  exact addF_subset p _ _ b (hsub1 (by simp))
                · exact hland j' (edge_split hget e') r''
        | OpRange lo hi =>
          rw [dfaAdd_range p hmem hget,
            reachAvoid_terminal_iff hmem (fun j e => edge_range hget e)]
          simp
        | OpMatch =>
          rw [dfaAdd_match p hmem hget,
            reachAvoid_terminal_iff hmem (fun j e => edge_match hget e)]
          simp

theorem dfaAdd_mem_iff (p : prog) (set : List Nat) (ip y : Nat) :
    y ∈ dfaAdd p set ip ↔ y ∈ set ∨ reachAvoid p set ip y :=
  dfaAdd_mem p (missing p set) set ip y (le_refl _)

theorem closedSet_nil (p : prog) : closedSet p [] := by
  intro z hz
  cases hz

theorem reaches_mem_of_closed {p : prog} {S : List Nat} (hS : closedSet p S)
    {i y : Nat} (hi : i ∈ S) (h : reaches p i y) : y ∈ S := by
  induction h with
  | refl _ => exact hi
  | step e _ ih => exact ih (hS _ hi _ e)

theorem reaches_avoid_or_mem {p : prog} {S : List Nat} (hS : closedSet p S)
    {i y : Nat} (h : reaches p i y) : y ∈ S ∨ reachAvoid p S i y := by
  induction h with
  | refl i =>
    by_cases hi : i ∈ S
    · exact Or.inl hi
    · exact Or.inr (reachAvoid.refl i hi)
  | step e r ih =>
    rename_i i' j' y'
    by_cases hi : i' ∈ S
    · exact Or.inl (reaches_mem_of_closed hS (hS _ hi _ e) r)
    · rcases ih with hy | r'
      · exact Or.inl hy
      · exact Or.inr (reachAvoid.step hi e r')

/-- For a closed starting set, one closure call computes exactly the union of
the set with everything epsilon-reachable from the root. -/
theorem dfaAdd_closed_spec {p : prog} {S : List Nat} (hS : closedSet p S)
    (i y : Nat) : y ∈ dfaAdd p S i ↔ y ∈ S ∨ reaches p i y := by
  rw [dfaAdd_mem_iff]
  constructor
  · rintro (h | r)
    · exact Or.inl h
    · exact Or.inr (reachAvoid_reaches r)
  · rintro (h | r)
    · exact Or.inl h
    · rcases reaches_avoid_or_mem hS r with h | r'
      · exact Or.inl h
      · exact Or.inr r'

theorem dfaAdd_preserves_closed {p : prog} {S : List Nat} (hS : closedSet p S)
    (i : Nat) : closedSet p (dfaAdd p S i) := by
  intro z hz w he
  by_cases hzS : z ∈ S
  · exact addF_subset p _ _ i (hS z hzS w he)
  · exact dfaAdd_fresh_closed p (missing p S) S i (le_refl _) z hz hzS w he

theorem runStep_eq_match {p : prog} {b : Nat} {acc : List Nat × Bool} {ip : Nat}
    (hget : p.get? ip = some .OpMatch) : runStep p b acc ip = (acc.1, true) := by
  rw [List.get?_eq_getElem?] at hget
  simp [runStep, hget]

theorem runStep_eq_range_pos {p : prog} {b : Nat} {acc : List Nat × Bool}
    {ip lo hi : Nat} (hget : p.get? ip = some (.OpRange lo hi))
    (hcnd : lo ≤ b ∧ b ≤ hi) :
    runStep p b acc ip = (dfaAdd p acc.1 (ip + 1), acc.2) := by
  rw [List.get?_eq_getElem?] at hget
  simp [runStep, hget, hcnd.1, hcnd.2]

theorem runStep_eq_range_neg {p : prog} {b : Nat} {acc : List Nat × Bool}
    {ip lo hi : Nat} (hget : p.get? ip = some (.OpRange lo hi))
    (hcnd : ¬(lo ≤ b ∧ b ≤ hi)) : runStep p b acc ip = acc := by
  rw [List.get?_eq_getElem?] at hget
  simp only [runStep, List.get?_eq_getElem?, hget]
  rw [if_neg hcnd]

theorem runStep_eq_none {p : prog} {b : Nat} {acc : List Nat × Bool} {ip : Nat}
    (hget : p.get? ip = none) : runStep p b acc ip = acc := by
  rw [List.get?_eq_getElem?] at hget
  simp [runStep, hget]

theorem runStep_eq_jmp {p : prog} {b : Nat} {acc : List Nat × Bool} {ip t : Nat}
    (hget : p.get? ip = some (.OpJmp t)) : runStep p b acc ip = acc := by
  rw [List.get?_eq_getElem?] at hget
  simp [runStep, hget]

theorem runStep_eq_split {p : prog} {b : Nat} {acc : List Nat × Bool}
    {ip x y : Nat} (hget : p.get? ip = some (.OpSplit x y)) :
    runStep p b acc ip = acc := by
  rw [List.get?_eq_getElem?] at hget
  simp [runStep, hget]

theorem runStep_fst_closed {p : prog} {b : Nat} {acc : List Nat × Bool}
    (h : closedSet p acc.1) (ip : Nat) : closedSet p (runStep p b acc ip).1 := by
  unfold runStep
  cases hget : p.get? ip with
  | none => exact h
  | some i =>
    cases i with
    | OpJmp t => exact h
    | OpSplit x y => exact h
    | OpRange lo hi =>
      by_cases hc : lo ≤ b ∧ b ≤ hi
      · simpa [hc] using dfaAdd_preserves_closed h (ip + 1)
      · simpa [hc] using h
    | OpMatch => exact h

theorem runFold_snd (p : prog) (b : Nat) :
    ∀ (l : List Nat) (acc : List Nat × Bool),
      (l.foldl (runStep p b) acc).2 = (acc.2 || l.any (isMatchInst p)) := by
  intro l
  induction l with
  | nil => intro acc; simp
  | cons ip l ih =>
    intro acc
    rw [List.foldl_cons, ih]
    have hstep : (runStep p b acc ip).2 = (acc.2 || isMatchInst p ip) := by
      unfold runStep isMatchInst
      cases hget : p.get? ip with
      | none => simp
      | some i =>
        cases i with
        | OpJmp t => simp
        | OpSplit x y => simp
        | OpRange lo hi =>
          by_cases hc : lo ≤ b ∧ b ≤ hi <;> simp [hc]
        | OpMatch => simp
    rw [hstep, List.any_cons, Bool.or_assoc]

theorem runFold_fst (p : prog) (b : Nat) :
    ∀ (l : List Nat) (acc : List Nat × Bool), closedSet p acc.1 →
      closedSet p (l.foldl (runStep p b) acc).1 ∧
      (∀ y, y ∈ (l.foldl (runStep p b) acc).1 ↔ y ∈ acc.1 ∨
        ∃ ip ∈ l, ∃ lo hi, p.get? ip = some (.OpRange lo hi) ∧
          lo ≤ b ∧ b ≤ hi ∧ reaches p (ip + 1) y) := by
  intro l
  induction l with
  | nil =>
    intro acc hacc
    refine ⟨hacc, fun y => ?_⟩
    simp
  | cons ip l ih =>
    intro acc hacc
    rw [List.foldl_cons]
    have hstepc : closedSet p (runStep p b acc ip).1 := runStep_fst_closed hacc ip
    obtain ⟨hc, hiff⟩ := ih (runStep p b acc ip) hstepc
    refine ⟨hc, fun y => ?_⟩
    rw [hiff y]
    have hstep_mem : ∀ y, y ∈ (runStep p b acc ip).1 ↔ y ∈ acc.1 ∨
        ∃ lo hi, p.get? ip = some (.OpRange lo hi) ∧
          lo ≤ b ∧ b ≤ hi ∧ reaches p (ip + 1) y := by
      intro z
      cases hget : p.get? ip with
      | none =>
        rw [runStep_eq_none hget]
        simp [hget]
      | some i =>
        cases i with
        | OpJmp t =>
          rw [runStep_eq_jmp hget]
          simp [hget]
        | OpSplit x y' =>
          rw [runStep_eq_split hget]
          simp [hget]
        | OpRange lo hi =>
          by_cases hcnd : lo ≤ b ∧ b ≤ hi
          · rw [runStep_eq_range_pos hget hcnd]
            show z ∈ dfaAdd p acc.1 (ip + 1) ↔ _
            rw [dfaAdd_closed_spec hacc (ip + 1) z]
            constructor
            · rintro (h | h)
              · exact Or.inl h
              · exact Or.inr ⟨lo, hi, rfl, hcnd.1, hcnd.2, h⟩
            · rintro (h | ⟨lo', hi', hget', h1, h2, h3⟩)
              · exact Or.inl h
              · injection hget' with hh
                injection hh with h4 h5
                subst h4; subst h5
                exact Or.inr h3
          · rw [runStep_eq_range_neg hget hcnd]
            constructor
            · exact Or.inl
            · rintro (h | ⟨lo', hi', hget', h1, h2, h3⟩)
              · exact h
              · injection hget' with hh
                injection hh with h4 h5
                subst h4; subst h5
                exact absurd ⟨h1, h2⟩ hcnd
        | OpMatch =>
          rw [runStep_eq_match hget]
          simp [hget]
    rw [hstep_mem y]
    constructor
    · rintro ((h | hip) | ⟨ip', hip', rest⟩)
      · exact Or.inl h
      · exact Or.inr ⟨ip, by simp, hip⟩
      · exact Or.inr ⟨ip', by simp [hip'], rest⟩
    · rintro (h | ⟨ip', hip', rest⟩)
      · exact Or.inl (Or.inl h)
      · rcases List.mem_cons.mp hip' with h' | h'
        · subst h'
          exact Or.inl (Or.inr rest)
        · exact Or.inr ⟨ip', h', rest⟩

theorem isMatchInst_eq_true {p : prog} {ip : Nat} :
    isMatchInst p ip = true ↔ p.get? ip = some .OpMatch := by
  unfold isMatchInst
  cases hget : p.get? ip with
  | none => simp
  | some i => cases i <;> simp

/-- C3: for a program with in-bounds `Jmp`/`Split` targets, the closure
operation `dfa.add` leaves the set unchanged when `i` is already present;
otherwise it records `i` and recurses per opcode — on the `Jmp` target, on
the `Split` branches left-then-right — while `Range`/`Match` add nothing
further and leave `i` a member. -/
theorem C3_closure_equations (p : prog) (set : List Nat) (i : Nat)
    (hwf : inBounds p = true) :
    (i ∈ set → dfaAdd p set i = set) ∧
    (i ∉ set → ∀ t, p.get? i = some (.OpJmp t) →
      dfaAdd p set i = dfaAdd p (set ++ [i]) t) ∧
    (i ∉ set → ∀ a b, p.get? i = some (.OpSplit a b) →
      dfaAdd p set i = dfaAdd p (dfaAdd p (set ++ [i]) a) b) ∧
    (i ∉ set → ((∃ lo hi, p.get? i = some (.OpRange lo hi)) ∨
        p.get? i = some .OpMatch) →
      dfaAdd p set i = set ++ [i] ∧ i ∈ dfaAdd p set i) := by
  refine ⟨fun h => dfaAdd_of_mem p h,
    fun hmem t hget => dfaAdd_jmp p hmem hget,
    fun hmem a b hget => dfaAdd_split p hmem hget,
    fun hmem hterm => ?_⟩
  rcases hterm with ⟨lo, hi, hget⟩ | hget
  · rw [dfaAdd_range p hmem hget]
    simp
  · rw [dfaAdd_match p hmem hget]
    simp

/-- C3 witness: on `[Range(97,97), Match]` with the empty set and index 0,
the terminal case fires: the closure is exactly `[0]` and 0 is a member. -/
theorem C3_closure_equations_witness :
    dfaAdd pExampleA [] 0 = [] ++ [0] ∧ 0 ∈ dfaAdd pExampleA [] 0 :=
  (C3_closure_equations pExampleA [] 0 (by decide)).2.2.2 (by decide)
    (Or.inl ⟨97, 97, rfl⟩)

/-- C4: the closure recursion terminates — any fuel of at least
`p.length + 1` computes the same stable result, the stack depth that the Go
membership check enforces — and on a duplicate-free set it stays
duplicate-free and only extends the set, so each index is added at most once
per closure call, cycles and diamonds included. -/
theorem C4_closure_terminates (p : prog) (set : List Nat) (i : Nat)
    (hwf : inBounds p = true) (hnd : set.Nodup) :
    (∀ fuel, p.length + 1 ≤ fuel → addF p fuel set i = dfaAdd p set i) ∧
    (dfaAdd p set i).Nodup ∧ set <+: dfaAdd p set i :=
  ⟨fun fuel hle => dfaAdd_eq_addF p set i hle,
    dfaAdd_nodup p (p.length + 1) i hnd,
    addF_pref p (p.length + 1) set i⟩

/-- C4 witness: on the cyclic program `(a)*` (`Jmp` back to the `Split`),
fuel 10 computes the stable closure of index 0 from the empty set, and the
result is duplicate-free. -/
theorem C4_closure_terminates_witness :
    addF pAStar 10 [] 0 = dfaAdd pAStar [] 0 ∧ (dfaAdd pAStar [] 0).Nodup :=
  ⟨(C4_closure_terminates pAStar [] 0 (by decide) (by decide)).1 10 (by decide),
    (C4_closure_terminates pAStar [] 0 (by decide) (by decide)).2.1⟩

theorem dfaRun_isMatch_iff (p : prog) (fromS : List Nat) (b : Nat) :
    (dfaRun p fromS b).2 = true ↔ ∃ ip ∈ fromS, p.get? ip = some .OpMatch := by
  rw [dfaRun, runFold_snd]
  simp only [Bool.false_or, List.any_eq_true, isMatchInst_eq_true]

theorem dfaRun_mem_iff (p : prog) (fromS : List Nat) (b y : Nat) :
    y ∈ (dfaRun p fromS b).1 ↔
      ∃ ip ∈ fromS, ∃ lo hi, p.get? ip = some (.OpRange lo hi) ∧
        lo ≤ b ∧ b ≤ hi ∧ reaches p (ip + 1) y := by
  have h := (runFold_fst p b fromS ([], false) (closedSet_nil p)).2 y
  rw [dfaRun, h]
  simp

/-- C5: the byte-step `dfa.run` reports `wasMatch = true` exactly when the
from-set holds a `Match` instruction (the state being left is accepting), and
the to-set it fills holds exactly the epsilon closure of the successors
`i + 1` of the `Range` members of the from-set that cover byte `b`. -/
theorem C5_byte_step (p : prog) (fromS : List Nat) (b y : Nat) :
    ((dfaRun p fromS b).2 = true ↔ ∃ ip ∈ fromS, p.get? ip = some .OpMatch) ∧
    (y ∈ (dfaRun p fromS b).1 ↔
      ∃ ip ∈ fromS, ∃ lo hi, p.get? ip = some (.OpRange lo hi) ∧
        lo ≤ b ∧ b ≤ hi ∧ reaches p (ip + 1) y) :=
  ⟨dfaRun_isMatch_iff p fromS b, dfaRun_mem_iff p fromS b y⟩

theorem getD_append_left {α : Type} (d : α) :
    ∀ (l l2 : List α) (n : Nat), n < l.length → (l ++ l2).getD n d = l.getD n d := by
  intro l
  induction l with
  | nil => intro l2 n h; simp at h
  | cons x xs ih =>
    intro l2 n h
    cases n with
    | zero => rfl
    | succ m =>
      simp only [List.cons_append, List.getD_cons_succ]
      exact ih l2 m (by simpa using h)

theorem getD_append_len {α : Type} (d : α) (l : List α) (x : α) :
    (l ++ [x]).getD l.length d = x := by
  induction l with
  | nil => rfl
  | cons y ys ih => simpa using ih

theorem setGetD_eq {α : Type} (d : α) :
    ∀ (l : List α) (n : Nat) (x : α), n < l.length → (l.set n x).getD n d = x := by
  intro l
  induction l with
  | nil => intro n x h; simp at h
  | cons y ys ih =>
    intro n x h
    cases n with
    | zero => rfl
    | succ m =>
      simp only [List.set_cons_succ, List.getD_cons_succ]
      exact ih m x (by simpa using h)

theorem setGetD_ne {α : Type} (d : α) :
    ∀ (l : List α) (n : Nat) (x : α) (i : Nat), i ≠ n →
      (l.set n x).getD i d = l.getD i d := by
  intro l
  induction l with
  | nil => intro n x i h; rfl
  | cons y ys ih =>
    intro n x i h
    cases n with
    | zero =>
      cases i with
      | zero => exact absurd rfl h
      | succ j => rfl
    | succ m =>
      cases i with
      | zero => rfl
      | succ j =>
        simp only [List.set_cons_succ, List.getD_cons_succ]
        exact ih m x j (fun hc => h (by rw [hc]))

theorem set_of_length_le {α : Type} :
    ∀ (l : List α) (n : Nat) (x : α), l.length ≤ n → l.set n x = l := by
  intro l
  induction l with
  | nil => intro n x h; rfl
  | cons y ys ih =>
    intro n x h
    cases n with
    | zero => simp at h
    | succ m =>
      simp only [List.set_cons_succ]
      rw [ih m x (by simpa using h)]

theorem mem_of_mem_set {α : Type} :
    ∀ (l : List α) (n : Nat) (x y : α), y ∈ l.set n x → y = x ∨ y ∈ l := by
  intro l
  induction l with
  | nil => intro n x y h; simp at h
  | cons z zs ih =>
    intro n x y h
    cases n with
    | zero =>
      rcases List.mem_cons.mp h with h' | h'
      · exact Or.inl h'
      · exact Or.inr (List.mem_cons_of_mem _ h')
    | succ m =>
      rcases List.mem_cons.mp h with h' | h'
      · exact Or.inr (h' ▸ List.mem_cons_self _ _)
      · rcases ih m x y h' with h'' | h''
        · exact Or.inl h''
        · exact Or.inr (List.mem_cons_of_mem _ h'')

theorem pref_getD {α : Type} (d : α) {l l' : List α} (h : l <+: l') {n : Nat}
    (hn : n < l.length) : l'.getD n d = l.getD n d := by
  obtain ⟨t, rfl⟩ := h
  exact getD_append_left d l t n hn

theorem nodup_lt_length_le {l : List Nat} {n : Nat} (hnd : l.Nodup)
    (hlt : ∀ x ∈ l, x < n) : l.length ≤ n := by
  have h1 : l.toFinset.card = l.length := List.toFinset_card_of_nodup hnd
  have h2 : l.toFinset ⊆ Finset.range n := by
    intro x hx
    simp only [Finset.mem_range]
    exact hlt x (List.mem_toFinset.mp hx)
  calc l.length = l.toFinset.card := h1.symm
    _ ≤ (Finset.range n).card := Finset.card_le_card h2
    _ = n := Finset.card_range n

theorem assoc_inj {c : List (List Nat × Nat)} (hnd : (c.map Prod.fst).Nodup)
    {k : List Nat} {i j : Nat} (hi : (k, i) ∈ c) (hj : (k, j) ∈ c) : i = j := by
  induction c with
  | nil => simp at hi
  | cons q rest ih =>
    simp only [List.map_cons, List.nodup_cons] at hnd
    rcases List.mem_cons.mp hi with h1 | h1 <;> rcases List.mem_cons.mp hj with h2 | h2
    · rw [← h1] at h2
      exact (congrArg Prod.snd h2).symm
    · exfalso
      apply hnd.1
      rw [← h1]
      exact List.mem_map.mpr ⟨(k, j), h2, rfl⟩
    · exfalso
      apply hnd.1
      rw [← h2]
      exact List.mem_map.mpr ⟨(k, i), h1, rfl⟩
    · exact ih hnd.2 h1 h2

theorem cacheLookup_mem :
    ∀ (c : List (List Nat × Nat)) (k : List Nat) (v : Nat),
      cacheLookup c k = some v → (k, v) ∈ c := by
  intro c
  induction c with
  | nil => intro k v h; simp [cacheLookup] at h
  | cons q rest ih =>
    intro k v h
    by_cases hq : q.1 = k
    · simp only [cacheLookup, hq, if_true, Option.some.injEq] at h
      have hqv : q = (k, v) := by cases q; simp_all
      rw [hqv]
      exact List.mem_cons_self _ _
    · simp only [cacheLookup, hq, if_false] at h
      exact List.mem_cons_of_mem _ (ih k v h)

theorem cacheLookup_none :
    ∀ (c : List (List Nat × Nat)) (k : List Nat),
      cacheLookup c k = none → ∀ q ∈ c, q.1 ≠ k := by
  intro c
  induction c with
  | nil => intro k _ q hq; simp at hq
  | cons q' rest ih =>
    intro k h q hq
    by_cases hq' : q'.1 = k
    · simp [cacheLookup, hq'] at h
    · rcases List.mem_cons.mp hq with h1 | h1
      · rw [h1]; exact hq'
      · simp only [cacheLookup, hq', if_false] at h
        exact ih k h q h1

theorem binv_empty : BInvC ⟨[], []⟩ := by
  refine ⟨List.nodup_nil, ?_, ?_⟩
  · intro q hq; simp at hq
  · intro i hi; simp at hi

theorem cachedState_eq_empty {p : prog} {bld : Builder} {set : List Nat}
    (h : sigInsts p set = []) : cachedState p bld set = (bld, none) := by
  simp [cachedState, h]

theorem cachedState_eq_hit {p : prog} {bld : Builder} {set : List Nat} {v : Nat}
    (hne : sigInsts p set ≠ [])
    (hl : cacheLookup bld.cache (sigInsts p set) = some v) :
    cachedState p bld set = (bld, some v) := by
  simp [cachedState, List.isEmpty_iff, hne, hl]

theorem cachedState_eq_miss {p : prog} {bld : Builder} {set : List Nat}
    (hne : sigInsts p set ≠ [])
    (hl : cacheLookup bld.cache (sigInsts p set) = none) :
    cachedState p bld set =
      (⟨bld.states ++
          [⟨sigInsts p set, List.replicate 256 none, sigIsMatch p set⟩],
        (sigInsts p set, bld.states.length) :: bld.cache⟩,
        some bld.states.length) := by
  simp [cachedState, List.isEmpty_iff, hne, hl]

theorem cachedState_states_pref (p : prog) (bld : Builder) (set : List Nat) :
    bld.states <+: (cachedState p bld set).1.states := by
  by_cases h : sigInsts p set = []
  · rw [cachedState_eq_empty h]
  · cases hl : cacheLookup bld.cache (sigInsts p set) with
    | some v => rw [cachedState_eq_hit h hl]
    | none =>
      rw [cachedState_eq_miss h hl]
      exact List.prefix_append _ _

theorem cachedState_len_le (p : prog) (bld : Builder) (set : List Nat) :
    (cachedState p bld set).1.states.length ≤ bld.states.length + 1 := by
  by_cases h : sigInsts p set = []
  · rw [cachedState_eq_empty h]
    exact Nat.le_succ _
  · cases hl : cacheLookup bld.cache (sigInsts p set) with
    | some v =>
      rw [cachedState_eq_hit h hl]
      exact Nat.le_succ _
    | none =>
      rw [cachedState_eq_miss h hl]
      simp

theorem cachedState_none_iff {p : prog} {bld : Builder} {set : List Nat} :
    (cachedState p bld set).2 = none ↔ sigInsts p set = [] := by
  by_cases h : sigInsts p set = []
  · rw [cachedState_eq_empty h]
    simp [h]
  · cases hl : cacheLookup bld.cache (sigInsts p set) with
    | some v =>
      rw [cachedState_eq_hit h hl]
      simp [h]
    | none =>
      rw [cachedState_eq_miss h hl]
      simp [h]

theorem cachedState_inv {p : prog} {bld : Builder} (set : List Nat)
    (h : BInvC bld) : BInvC (cachedState p bld set).1 := by
  by_cases hs : sigInsts p set = []
  · rw [cachedState_eq_empty hs]
    exact h
  · cases hl : cacheLookup bld.cache (sigInsts p set) with
    | some v =>
      rw [cachedState_eq_hit hs hl]
      exact h
    | none =>
      rw [cachedState_eq_miss hs hl]
      have hkey : sigInsts p set ∉ bld.cache.map Prod.fst := by
        intro hmem
        rcases List.mem_map.mp hmem with ⟨q, hq, hq1⟩
        exact cacheLookup_none bld.cache _ hl q hq hq1
      refine ⟨?_, ?_, ?_⟩
      · simp only [List.map_cons]
        exact List.nodup_cons.mpr ⟨hkey, h.keysNodup⟩
      · intro q hq
        rcases List.mem_cons.mp hq with h1 | h1
        · subst h1
          constructor
          · simp
          · simp only
            rw [getD_append_len]
        · obtain ⟨hlt, hins⟩ := h.sound q h1
          constructor
          · simp only [List.length_append, List.length_cons]
            omega
          · simp only
            rw [getD_append_left _ _ _ _ hlt]
            exact hins
      · intro i hi
        simp only [List.length_append, List.length_singleton] at hi
        by_cases hilt : i < bld.states.length
        · have := h.complete i hilt
          simp only
          rw [getD_append_left _ _ _ _ hilt]
          exact List.mem_cons_of_mem _ this
        · have hieq : i = bld.states.length := by omega
          subst hieq
          simp only
          rw [getD_append_len]
          exact List.mem_cons_self _ _

theorem cachedState_spec_some {p : prog} {bld : Builder} {set : List Nat} {v : Nat}
    (h : BInvC bld) (hv : (cachedState p bld set).2 = some v) :
    v < (cachedState p bld set).1.states.length ∧
      ((cachedState p bld set).1.states.getD v default).insts = sigInsts p set := by
  by_cases hs : sigInsts p set = []
  · rw [cachedState_eq_empty hs] at hv
    simp at hv
  · cases hl : cacheLookup bld.cache (sigInsts p set) with
    | some w =>
      rw [cachedState_eq_hit hs hl] at hv ⊢
      have hwv : w = v := by simpa using hv
      subst hwv
      obtain ⟨hlt, hins⟩ := h.sound _ (cacheLookup_mem bld.cache _ w hl)
      exact ⟨hlt, hins⟩
    | none =>
      rw [cachedState_eq_miss hs hl] at hv ⊢
      have hwv : bld.states.length = v := by simpa using hv
      subst hwv
      constructor
      · simp
      · show ((bld.states ++ [_]).getD bld.states.length default).insts = _
        rw [getD_append_len]

theorem runState_snd (p : prog) (bld : Builder) (s b : Nat) :
    (runState p bld s b).2 = (cachedState p bld (rsSet p bld s b)).2 := rfl

theorem runState_cache (p : prog) (bld : Builder) (s b : Nat) :
    (runState p bld s b).1.cache =
      (cachedState p bld (rsSet p bld s b)).1.cache := rfl

theorem runState_states (p : prog) (bld : Builder) (s b : Nat) :
    (runState p bld s b).1.states =
      (cachedState p bld (rsSet p bld s b)).1.states.set s
        { (cachedState p bld (rsSet p bld s b)).1.states.getD s default with
          next := ((cachedState p bld (rsSet p bld s b)).1.states.getD s
              default).next.set b (cachedState p bld (rsSet p bld s b)).2 } := rfl

theorem runState_length (p : prog) (bld : Builder) (s b : Nat) :
    (runState p bld s b).1.states.length =
      (cachedState p bld (rsSet p bld s b)).1.states.length := by
  rw [runState_states]
  exact List.length_set _ _ _

theorem runState_len_mono (p : prog) (bld : Builder) (s b : Nat) :
    bld.states.length ≤ (runState p bld s b).1.states.length := by
  rw [runState_length]
  exact (cachedState_states_pref p bld (rsSet p bld s b)).length_le

theorem runState_len_le (p : prog) (bld : Builder) (s b : Nat) :
    (runState p bld s b).1.states.length ≤ bld.states.length + 1 := by
  rw [runState_length]
  exact cachedState_len_le p bld (rsSet p bld s b)

theorem runState_getD_insts (p : prog) (bld : Builder) (s b i : Nat) :
    (((runState p bld s b).1.states.getD i default).insts) =
      (((cachedState p bld (rsSet p bld s b)).1.states.getD i default).insts) := by
  rw [runState_states]
  by_cases his : i = s
  · subst his
    by_cases hlt : i < (cachedState p bld (rsSet p bld i b)).1.states.length
    · rw [setGetD_eq _ _ _ _ hlt]
    · rw [set_of_length_le _ _ _ (by omega)]
  · rw [setGetD_ne _ _ _ _ _ his]

theorem runState_inv {p : prog} {bld : Builder} (s b : Nat) (h : BInvC bld) :
    BInvC (runState p bld s b).1 := by
  have h1 : BInvC (cachedState p bld (rsSet p bld s b)).1 :=
    cachedState_inv _ h
  refine ⟨?_, ?_, ?_⟩
  · rw [runState_cache]
    exact h1.keysNodup
  · intro q hq
    rw [runState_cache] at hq
    obtain ⟨hlt, hins⟩ := h1.sound q hq
    constructor
    · rw [runState_length]
      exact hlt
    · rw [runState_getD_insts]
      exact hins
  · intro i hi
    rw [runState_length] at hi
    rw [runState_cache, runState_getD_insts]
    exact h1.complete i hi

theorem runState_ns_lt {p : prog} {bld : Builder} {s b v : Nat} (h : BInvC bld)
    (hv : (runState p bld s b).2 = some v) :
    v < (runState p bld s b).1.states.length := by
  rw [runState_snd] at hv
  rw [runState_length]
  exact (cachedState_spec_some h hv).1

theorem stepByte_eq (p : prog) (s : Nat) (acc : Builder × List Nat × List (Option Nat))
    (b : Nat) :
    stepByte p s acc b =
      if (runState p acc.1 s b).1.states.length > StateLimit
      then Except.error (runState p acc.1 s b).1
      else Except.ok ((runState p acc.1 s b).1,
        match (runState p acc.1 s b).2 with
        | some v => if v ∈ acc.2.1 then (acc.2.1, acc.2.2)
                    else (v :: acc.2.1, some v :: acc.2.2)
        | none => (acc.2.1, acc.2.2)) := rfl

theorem stepByte_error {p : prog} {s : Nat} {acc : Builder × List Nat × List (Option Nat)}
    {b : Nat} {bldE : Builder} (h : stepByte p s acc b = Except.error bldE) :
    bldE = (runState p acc.1 s b).1 ∧ bldE.states.length > StateLimit := by
  rw [stepByte_eq] at h
  by_cases hc : (runState p acc.1 s b).1.states.length > StateLimit
  · rw [if_pos hc] at h
    injection h with h'
    exact ⟨h'.symm, h' ▸ hc⟩
  · rw [if_neg hc] at h
    cases h

theorem stepByte_ok {p : prog} {s : Nat} {acc acc' : Builder × List Nat × List (Option Nat)}
    {b : Nat} (h : stepByte p s acc b = Except.ok acc') :
    acc'.1 = (runState p acc.1 s b).1 ∧ acc'.1.states.length ≤ StateLimit ∧
      ((acc'.2.1 = acc.2.1 ∧ acc'.2.2 = acc.2.2) ∨
        ∃ v, (runState p acc.1 s b).2 = some v ∧ v ∉ acc.2.1 ∧
          acc'.2.1 = v :: acc.2.1 ∧ acc'.2.2 = some v :: acc.2.2) := by
  rw [stepByte_eq] at h
  by_cases hc : (runState p acc.1 s b).1.states.length > StateLimit
  · rw [if_pos hc] at h
    cases h
  · rw [if_neg hc] at h
    injection h with h'
    subst h'
    refine ⟨rfl, Nat.le_of_not_lt hc, ?_⟩
    cases hns : (runState p acc.1 s b).2 with
    | none => simp [hns]
    | some v =>
      by_cases hv : v ∈ acc.2.1
      · simp [hns, hv]
      · right
        exact ⟨v, rfl, hv, by simp [hv], by simp [hv]⟩

theorem foldProcess_count (p : prog) (s : Nat) :
    ∀ (l : List Nat) (acc acc' : Builder × List Nat × List (Option Nat)),
      l.foldlM (stepByte p s) acc = Except.ok acc' →
      ∀ v, acc'.2.2.count (some v) + (if v ∈ acc'.2.1 then 0 else 1) ≤
        acc.2.2.count (some v) + (if v ∈ acc.2.1 then 0 else 1) := by
  intro l
  induction l with
  | nil =>
    intro acc acc' h v
    simp only [List.foldlM_nil] at h
    injection h with h'
    subst h'
    exact le_refl _
  | cons b l ih =>
    intro acc acc' h v
    rw [List.foldlM_cons] at h
    cases hstep : stepByte p s acc b with
    | error e =>
      rw [hstep] at h
      cases h
    | ok acc1 =>
      rw [hstep] at h
      have hstep1 := stepByte_ok hstep
      have h1 := ih acc1 acc' h v
      rcases hstep1.2.2 with ⟨hseen, hstack⟩ | ⟨w, hns, hw, hseen, hstack⟩
      · rw [hseen, hstack] at h1
        exact h1
      · rw [hseen, hstack] at h1
        by_cases hv : v = w
        · subst hv
          rw [if_neg hw] at *
          have hcount : (some v :: acc.2.2).count (some v) = acc.2.2.count (some v) + 1 := by
            simp [List.count_cons]
          have hmem : v ∈ v :: acc.2.1 := List.mem_cons_self _ _
          rw [hcount, if_pos hmem] at h1
          omega
        · have hcount : (some w :: acc.2.2).count (some v) = acc.2.2.count (some v) := by
            simp [List.count_cons, hv]
          have hmem : (v ∈ w :: acc.2.1) ↔ v ∈ acc.2.1 := by
            simp [List.mem_cons, hv]
          rw [hcount] at h1
          by_cases hvs : v ∈ acc.2.1
          · rw [if_pos (hmem.mpr hvs)] at h1
            rw [if_pos hvs]
            exact h1
          · rw [if_neg (fun hc => hvs (hmem.mp hc))] at h1
            rw [if_neg hvs]
            exact h1

theorem foldProcess_spec (p : prog) (s : Nat) :
    ∀ (l : List Nat) (acc : Builder × List Nat × List (Option Nat)),
      BInvC acc.1 → acc.2.1.Nodup → (∀ x ∈ acc.2.1, x < acc.1.states.length) →
      (∀ bldE, l.foldlM (stepByte p s) acc = Except.error bldE →
        bldE.states.length > StateLimit ∧ BInvC bldE) ∧
      (∀ acc', l.foldlM (stepByte p s) acc = Except.ok acc' →
        BInvC acc'.1 ∧ acc'.2.1.Nodup ∧
        (∀ x ∈ acc'.2.1, x < acc'.1.states.length) ∧
        acc.1.states.length ≤ acc'.1.states.length ∧
        (acc' = acc ∨ acc'.1.states.length ≤ StateLimit) ∧
        acc'.2.2.length + acc.2.1.length = acc.2.2.length + acc'.2.1.length) := by
  intro l
  induction l with
  | nil =>
    intro acc hb hnd hlt
    constructor
    · intro bldE h
      simp only [List.foldlM_nil] at h
      cases h
    · intro acc' h
      simp only [List.foldlM_nil] at h
      injection h with h'
      subst h'
      exact ⟨hb, hnd, hlt, le_refl _, Or.inl rfl, rfl⟩
  | cons b l ih =>
    intro acc hb hnd hlt
    have hbofstep : BInvC (runState p acc.1 s b).1 := runState_inv s b hb
    constructor
    · intro bldE h
      rw [List.foldlM_cons] at h
      cases hstep : stepByte p s acc b with
      | error e =>
        rw [hstep] at h
        injection h with h'
        subst h'
        obtain ⟨heq, hgt⟩ := stepByte_error hstep
        exact ⟨hgt, heq ▸ hbofstep⟩
      | ok acc1 =>
        rw [hstep] at h
        obtain ⟨h1, h2, h3⟩ := stepByte_ok hstep
        have hinv1 : BInvC acc1.1 := h1 ▸ hbofstep
        have hmono : acc.1.states.length ≤ acc1.1.states.length := by
          rw [h1]
          exact runState_len_mono p acc.1 s b
        have hnd1 : acc1.2.1.Nodup := by
          rcases h3 with ⟨hseen, _⟩ | ⟨v, hns, hv, hseen, _⟩
          · rw [hseen]; exact hnd
          · rw [hseen]
            exact List.nodup_cons.mpr ⟨hv, hnd⟩
        have hlt1 : ∀ x ∈ acc1.2.1, x < acc1.1.states.length := by
          rcases h3 with ⟨hseen, _⟩ | ⟨v, hns, hv, hseen, _⟩
          · rw [hseen]
            intro x hx
            exact lt_of_lt_of_le (hlt x hx) hmono
          · rw [hseen]
            intro x hx
            rcases List.mem_cons.mp hx with hx' | hx'
            · subst hx'
              rw [h1]
              exact runState_ns_lt hb hns
            · exact lt_of_lt_of_le (hlt x hx') hmono
        exact ((ih acc1 hinv1 hnd1 hlt1).1 bldE h)
    · intro acc' h
      rw [List.foldlM_cons] at h
      cases hstep : stepByte p s acc b with
      | error e =>
        rw [hstep] at h
        cases h
      | ok acc1 =>
        rw [hstep] at h
        obtain ⟨h1, h2, h3⟩ := stepByte_ok hstep
        have hinv1 : BInvC acc1.1 := h1 ▸ runState_inv s b hb
        have hmono : acc.1.states.length ≤ acc1.1.states.length := by
          rw [h1]
          exact runState_len_mono p acc.1 s b
        have hnd1 : acc1.2.1.Nodup := by
          rcases h3 with ⟨hseen, _⟩ | ⟨v, hns, hv, hseen, _⟩
          · rw [hseen]; exact hnd
          · rw [hseen]
            exact List.nodup_cons.mpr ⟨hv, hnd⟩
        have hlt1 : ∀ x ∈ acc1.2.1, x < acc1.1.states.length := by
          rcases h3 with ⟨hseen, _⟩ | ⟨v, hns, hv, hseen, _⟩
          · rw [hseen]
            intro x hx
            exact lt_of_lt_of_le (hlt x hx) hmono
          · rw [hseen]
            intro x hx
            rcases List.mem_cons.mp hx with hx' | hx'
            · subst hx'
              rw [h1]
              exact runState_ns_lt hb hns
            · exact lt_of_lt_of_le (hlt x hx') hmono
        obtain ⟨hi1, hi2, hi3, hi4, hi5, hi6⟩ := (ih acc1 hinv1 hnd1 hlt1).2 acc' h
        refine ⟨hi1, hi2, hi3, le_trans hmono hi4, ?_, ?_⟩
        · right
          rcases hi5 with heq | hle
          · rw [heq]; exact h2
          · exact hle
        · have hlen1 : acc1.2.2.length + acc.2.1.length =
              acc.2.2.length + acc1.2.1.length := by
            rcases h3 with ⟨hseen, hstack⟩ | ⟨v, hns, hv, hseen, hstack⟩
            · rw [hseen, hstack]
            · rw [hseen, hstack]
              simp only [List.length_cons]
              omega
          omega

theorem foldProcess_preserves (p : prog) (s : Nat) (Q : Builder → Prop)
    (hQ : ∀ bld s' b, Q bld → Q (runState p bld s' b).1) :
    ∀ (l : List Nat) (acc : Builder × List Nat × List (Option Nat)), Q acc.1 →
      (∀ bldE, l.foldlM (stepByte p s) acc = Except.error bldE → Q bldE) ∧
      (∀ acc', l.foldlM (stepByte p s) acc = Except.ok acc' → Q acc'.1) := by
  intro l
  induction l with
  | nil =>
    intro acc hq
    constructor
    · intro bldE h
      simp only [List.foldlM_nil] at h
      cases h
    · intro acc' h
      simp only [List.foldlM_nil] at h
      injection h with h'
      subst h'
      exact hq
  | cons b l ih =>
    intro acc hq
    constructor
    · intro bldE h
      rw [List.foldlM_cons] at h
      cases hstep : stepByte p s acc b with
      | error e =>
        rw [hstep] at h
        injection h with h'
        subst h'
        obtain ⟨heq, _⟩ := stepByte_error hstep
        rw [heq]
        exact hQ acc.1 s b hq
      | ok acc1 =>
        rw [hstep] at h
        have hq1 : Q acc1.1 := (stepByte_ok hstep).1 ▸ hQ acc.1 s b hq
        exact (ih acc1 hq1).1 bldE h
    · intro acc' h
      rw [List.foldlM_cons] at h
      cases hstep : stepByte p s acc b with
      | error e =>
        rw [hstep] at h
        cases h
      | ok acc1 =>
        rw [hstep] at h
        have hq1 : Q acc1.1 := (stepByte_ok hstep).1 ▸ hQ acc.1 s b hq
        exact (ih acc1 hq1).2 acc' h

theorem buildLoop_preserves (p : prog) (Q : Builder → Prop)
    (hQ : ∀ bld s' b, Q bld → Q (runState p bld s' b).1) :
    ∀ (fuel : Nat) (stack : List (Option Nat)) (seen : List Nat) (bld : Builder)
      (trace : List Nat) (r : Except Builder Builder) (tr : List Nat),
      Q bld → buildLoop p fuel stack seen bld trace = some (r, tr) →
      Q (resBuilder r) := by
  intro fuel
  induction fuel with
  | zero =>
    intro stack seen bld trace r tr _ h
    cases h
  | succ n ih =>
    intro stack seen bld trace r tr hq h
    cases stack with
    | nil =>
      simp only [buildLoop] at h
      injection h with h'
      injection h' with h1 h2
      subst h1
      exact hq
    | cons s? rest =>
      cases s? with
      | none =>
        simp only [buildLoop] at h
        injection h with h'
        injection h' with h1 h2
        subst h1
        exact hq
      | some s =>
        simp only [buildLoop] at h
        cases hproc : processState p s (bld, seen, rest) with
        | error bldE =>
          rw [hproc] at h
          injection h with h'
          injection h' with h1 h2
          subst h1
          exact (foldProcess_preserves p s Q hQ (List.range 256)
            (bld, seen, rest) hq).1 bldE hproc
        | ok acc' =>
          rw [hproc] at h
          have hq' : Q acc'.1 := (foldProcess_preserves p s Q hQ (List.range 256)
            (bld, seen, rest) hq).2 acc' hproc
          exact ih acc'.2.2 acc'.2.1 acc'.1 (trace ++ [s]) r tr hq' h

theorem buildLoop_spec (p : prog) :
    ∀ (fuel : Nat) (stack : List (Option Nat)) (seen : List Nat) (bld : Builder)
      (trace : List Nat),
      BInvC bld → seen.Nodup → (∀ x ∈ seen, x < bld.states.length) →
      bld.states.length ≤ StateLimit →
      stack.length + (StateLimit + 2) ≤ fuel + seen.length →
      ∃ r tr, buildLoop p fuel stack seen bld trace = some (r, tr) ∧
        (∀ bldE, r = Except.error bldE → bldE.states.length > StateLimit) ∧
        (∀ bldO, r = Except.ok bldO → bldO.states.length ≤ StateLimit) := by
  intro fuel
  induction fuel with
  | zero =>
    intro stack seen bld trace hb hnd hlt hle hfuel
    exfalso
    have h1 : seen.length ≤ bld.states.length := nodup_lt_length_le hnd hlt
    omega
  | succ n ih =>
    intro stack seen bld trace hb hnd hlt hle hfuel
    cases stack with
    | nil =>
      refine ⟨Except.ok bld, trace, by simp only [buildLoop], ?_, ?_⟩
      · intro bldE h
        cases h
      · intro bldO h
        injection h with h'
        subst h'
        exact hle
    | cons s? rest =>
      cases s? with
      | none =>
        refine ⟨Except.ok bld, trace, by simp only [buildLoop], ?_, ?_⟩
        · intro bldE h
          cases h
        · intro bldO h
          injection h with h'
          subst h'
          exact hle
      | some s =>
        have hspec := foldProcess_spec p s (List.range 256) (bld, seen, rest)
          hb hnd hlt
        cases hproc : processState p s (bld, seen, rest) with
        | error bldE =>
          obtain ⟨hgt, _⟩ := hspec.1 bldE hproc
          refine ⟨Except.error bldE, trace ++ [s], ?_, ?_, ?_⟩
          · simp only [buildLoop, hproc]
          · intro bldE' h
            injection h with h'
            subst h'
            exact hgt
          · intro bldO h
            cases h
        | ok acc' =>
          obtain ⟨hi1, hi2, hi3, hi4, hi5, hi6⟩ := hspec.2 acc' hproc
          have hle' : acc'.1.states.length ≤ StateLimit := by
            rcases hi5 with heq | h
            · rw [heq]
              exact hle
            · exact h
          have hfuel' : acc'.2.2.length + (StateLimit + 2) ≤ n + acc'.2.1.length := by
            simp only [List.length_cons] at hfuel
            simp only at hi6
            omega
          obtain ⟨r, tr, hloop, he, ho⟩ := ih acc'.2.2 acc'.2.1 acc'.1
            (trace ++ [s]) hi1 hi2 hi3 hle' hfuel'
          refine ⟨r, tr, ?_, he, ho⟩
          simp only [buildLoop, hproc]
          exact hloop

theorem buildLoop_count (p : prog) :
    ∀ (fuel : Nat) (stack : List (Option Nat)) (seen : List Nat) (bld : Builder)
      (trace : List Nat) (r : Except Builder Builder) (tr : List Nat) (v B : Nat),
      buildLoop p fuel stack seen bld trace = some (r, tr) →
      trace.count v + stack.count (some v) + (if v ∈ seen then 0 else 1) ≤ B →
      tr.count v ≤ B := by
  intro fuel
  induction fuel with
  | zero =>
    intro stack seen bld trace r tr v B h
    cases h
  | succ n ih =>
    intro stack seen bld trace r tr v B h hbound
    cases stack with
    | nil =>
      simp only [buildLoop] at h
      injection h with h'
      injection h' with h1 h2
      subst h2
      omega
    | cons s? rest =>
      cases s? with
      | none =>
        simp only [buildLoop] at h
        injection h with h'
        injection h' with h1 h2
        subst h2
        omega
      | some s =>
        simp only [buildLoop] at h
        have hheadcount : (some s :: rest).count (some v) =
            rest.count (some v) + (if s = v then 1 else 0) := by
          by_cases hsv : s = v
          · subst hsv
            simp [List.count_cons]
          · simp [List.count_cons, hsv, fun hc : (v = s) => hsv hc.symm]
        have htrcount : (trace ++ [s]).count v =
            trace.count v + (if s = v then 1 else 0) := by
          by_cases hsv : s = v
          · subst hsv
            simp [List.count_append]
          · simp [List.count_append, List.count_singleton', hsv]
        cases hproc : processState p s (bld, seen, rest) with
        | error bldE =>
          rw [hproc] at h
          injection h with h'
          injection h' with h1 h2
          subst h2
          rw [htrcount]
          rw [hheadcount] at hbound
          omega
        | ok acc' =>
          rw [hproc] at h
          apply ih acc'.2.2 acc'.2.1 acc'.1 (trace ++ [s]) r tr v B h
          have hcnt := foldProcess_count p s (List.range 256) (bld, seen, rest)
            acc' hproc v
          rw [htrcount]
          rw [hheadcount] at hbound
          simp only at hcnt
          omega

theorem sigInsts_eq_filter (p : prog) (set : List Nat) :
    sigInsts p set = set.filter (isSig p) := rfl

theorem mem_sigInsts_isSig {p : prog} {set : List Nat} {x : Nat}
    (h : x ∈ sigInsts p set) : isSig p x = true :=
  (List.mem_filter.mp h).2

theorem getD_of_le {α : Type} (d : α) :
    ∀ (l : List α) (n : Nat), l.length ≤ n → l.getD n d = d := by
  intro l
  induction l with
  | nil => intro n h; cases n <;> rfl
  | cons x xs ih =>
    intro n h
    cases n with
    | zero => simp at h
    | succ m => exact ih m (by simpa using h)

theorem getD_replicate_none :
    ∀ (n i : Nat), (List.replicate n (none : Option Nat)).getD i none = none := by
  intro n
  induction n with
  | zero => intro i; cases i <;> rfl
  | succ m ih =>
    intro i
    cases i with
    | zero => rfl
    | succ j => exact ih j

theorem getD_mem_or {α : Type} (d : α) :
    ∀ (l : List α) (n : Nat), l.getD n d ∈ l ∨ l.getD n d = d := by
  intro l
  induction l with
  | nil => intro n; right; cases n <;> rfl
  | cons x xs ih =>
    intro n
    cases n with
    | zero => left; exact List.mem_cons_self _ _
    | succ m =>
      rcases ih m with h | h
      · left; exact List.mem_cons_of_mem _ h
      · right; exact h

theorem foldl_ssAdd_mem :
    ∀ (l acc : List Nat) (x : Nat), x ∈ l.foldl ssAdd acc ↔ x ∈ acc ∨ x ∈ l := by
  intro l
  induction l with
  | nil => intro acc x; simp
  | cons y ys ih =>
    intro acc x
    rw [List.foldl_cons, ih]
    unfold ssAdd
    by_cases hy : y ∈ acc
    · rw [if_pos hy]
      constructor
      · rintro (h | h)
        · exact Or.inl h
        · exact Or.inr (List.mem_cons_of_mem _ h)
      · rintro (h | h)
        · exact Or.inl h
        · rcases List.mem_cons.mp h with h' | h'
          · exact Or.inl (h' ▸ hy)
          · exact Or.inr h'
    · rw [if_neg hy]
      constructor
      · rintro (h | h)
        · rcases List.mem_append.mp h with h' | h'
          · exact Or.inl h'
          · exact Or.inr (List.mem_cons.mpr (Or.inl (by simpa using h')))
        · exact Or.inr (List.mem_cons_of_mem _ h)
      · rintro (h | h)
        · exact Or.inl (List.mem_append.mpr (Or.inl h))
        · rcases List.mem_cons.mp h with h' | h'
          · exact Or.inl (List.mem_append.mpr (Or.inr (by simp [h'])))
          · exact Or.inr h'

theorem coversB_eq_false {p : prog} {l : List Nat} {b : Nat}
    (h : coversB p l b = false) :
    ∀ ip ∈ l, ∀ lo hi, p.get? ip = some (.OpRange lo hi) →
      ¬(lo ≤ b ∧ b ≤ hi) := by
  intro ip hip lo hi hget hcnd
  rw [coversB, List.any_eq_false] at h
  have := h ip hip
  rw [hget] at this
  simp [hcnd.1, hcnd.2] at this

theorem dfaRun_nil_of_no_cover {p : prog} {fromS : List Nat} {b : Nat}
    (h : ∀ ip ∈ fromS, ∀ lo hi, p.get? ip = some (.OpRange lo hi) →
      ¬(lo ≤ b ∧ b ≤ hi)) :
    (dfaRun p fromS b).1 = [] := by
  rw [List.eq_nil_iff_forall_not_mem]
  intro y hy
  rcases ((dfaRun_mem_iff p fromS b y).mp hy) with ⟨ip, hip, lo, hi, hget, h1, h2, _⟩
  exact h ip hip lo hi hget ⟨h1, h2⟩

theorem getD_mem_of_lt {α : Type} (d : α) :
    ∀ (l : List α) (n : Nat), n < l.length → l.getD n d ∈ l := by
  intro l
  induction l with
  | nil => intro n h; simp at h
  | cons x xs ih =>
    intro n h
    cases n with
    | zero => exact List.mem_cons_self _ _
    | succ m => exact List.mem_cons_of_mem _ (ih m (by simpa using h))

theorem cachedState_inv10 {p : prog} {bld : Builder} (set : List Nat)
    (h : Inv10 p bld) : Inv10 p (cachedState p bld set).1 := by
  by_cases hs : sigInsts p set = []
  · rw [cachedState_eq_empty hs]
    exact h
  · cases hl : cacheLookup bld.cache (sigInsts p set) with
    | some v =>
      rw [cachedState_eq_hit hs hl]
      exact h
    | none =>
      rw [cachedState_eq_miss hs hl]
      intro st hst
      simp only [List.length_append, List.length_singleton]
      rcases List.mem_append.mp hst with h1 | h1
      · obtain ⟨ha, hb⟩ := h st h1
        exact ⟨ha, fun e he v hev => by
          have := hb e he v hev
          omega⟩
      · have hst' : st = ⟨sigInsts p set, List.replicate 256 none, sigIsMatch p set⟩ := by
          simpa using h1
        subst hst'
        constructor
        · intro ip hip
          exact mem_sigInsts_isSig hip
        · intro e he v hev
          have : e = none := List.eq_of_mem_replicate he
          rw [this] at hev
          cases hev

theorem runState_inv10 {p : prog} {bld : Builder} (s b : Nat) (hb : BInvC bld)
    (h : Inv10 p bld) : Inv10 p (runState p bld s b).1 := by
  have h1 : Inv10 p (cachedState p bld (rsSet p bld s b)).1 :=
    cachedState_inv10 _ h
  intro st hst
  rw [runState_states] at hst
  rcases mem_of_mem_set _ _ _ _ hst with h2 | h2
  · subst h2
    refine ⟨?_, ?_⟩
    · intro ip hip
      rcases getD_mem_or default ((cachedState p bld (rsSet p bld s b)).1.states) s
        with hm | hm
      · exact (h1 _ hm).1 ip hip
      · rw [hm] at hip
        have hd : (default : St).insts = [] := rfl
        rw [hd] at hip
        cases hip
    · intro e he v hev
      rw [runState_length]
      rcases mem_of_mem_set _ _ _ _ he with h3 | h3
      · subst h3
        exact (cachedState_spec_some hb hev).1
      · rcases getD_mem_or default ((cachedState p bld (rsSet p bld s b)).1.states) s
          with hm | hm
        · exact (h1 _ hm).2 e h3 v hev
        · rw [hm] at h3
          have hd : (default : St).next = [] := rfl
          rw [hd] at h3
          cases h3
  · obtain ⟨ha, hbnd⟩ := h1 st h2
    refine ⟨ha, ?_⟩
    intro e he v hev
    rw [runState_length]
    exact hbnd e he v hev

theorem cachedState_inv7 {p : prog} {bld : Builder} (set : List Nat)
    (h : Inv7 p bld) : Inv7 p (cachedState p bld set).1 := by
  by_cases hs : sigInsts p set = []
  · rw [cachedState_eq_empty hs]
    exact h
  · cases hl : cacheLookup bld.cache (sigInsts p set) with
    | some v =>
      rw [cachedState_eq_hit hs hl]
      exact h
    | none =>
      rw [cachedState_eq_miss hs hl]
      intro st hst b hcov
      rcases List.mem_append.mp hst with h1 | h1
      · exact h st h1 b hcov
      · have hst' : st = ⟨sigInsts p set, List.replicate 256 none, sigIsMatch p set⟩ := by
          simpa using h1
        subst hst'
        exact getD_replicate_none 256 b

theorem runState_inv7 {p : prog} {bld : Builder} (s b : Nat)
    (h : Inv7 p bld) : Inv7 p (runState p bld s b).1 := by
  have h1 : Inv7 p (cachedState p bld (rsSet p bld s b)).1 :=
    cachedState_inv7 _ h
  intro st hst b' hcov
  rw [runState_states] at hst
  rcases mem_of_mem_set _ _ _ _ hst with h2 | h2
  · subst h2
    rcases getD_mem_or default ((cachedState p bld (rsSet p bld s b)).1.states) s
      with hm | hm
    · show (((cachedState p bld (rsSet p bld s b)).1.states.getD s default).next.set
        b (cachedState p bld (rsSet p bld s b)).2).getD b' none = none
      by_cases hbb : b' = b
      · subst hbb
        by_cases hblt : b' <
            ((cachedState p bld (rsSet p bld s b')).1.states.getD s default).next.length
        · rw [setGetD_eq _ _ _ _ hblt]
          -- the written entry is the interned empty to-set: reject
          by_cases hsb : s < bld.states.length
          · have hins : ((cachedState p bld (rsSet p bld s b')).1.states.getD s
                default).insts = (bld.states.getD s default).insts := by
              rw [pref_getD default (cachedState_states_pref p bld _) hsb]
            rw [hins] at hcov
            have hnil : rsSet p bld s b' = [] := by
              apply dfaRun_nil_of_no_cover
              intro ip hip lo hi hget hc
              have hip' : ip ∈ (bld.states.getD s default).insts := by
                rcases (foldl_ssAdd_mem _ [] ip).mp hip with h' | h'
                · cases h'
                · exact h'
              exact coversB_eq_false hcov ip hip' lo hi hget hc
            have : cachedState p bld (rsSet p bld s b') = (bld, none) :=
              cachedState_eq_empty (by rw [hnil]; rfl)
            rw [this]
          · exfalso
            have hnil : rsSet p bld s b' = [] := by
              unfold rsSet
              rw [getD_of_le default _ _ (Nat.le_of_not_lt hsb)]
              have hd : (default : St).insts = [] := rfl
              rw [hd]
              rfl
            have hcs : cachedState p bld (rsSet p bld s b') = (bld, none) :=
              cachedState_eq_empty (by rw [hnil]; rfl)
            rw [hcs] at hblt
            have := getD_of_le (default : St) bld.states s (Nat.le_of_not_lt hsb)
            rw [this] at hblt
            have hd : (default : St).next = [] := rfl
            rw [hd] at hblt
            simp at hblt
        · rw [set_of_length_le _ _ _ (Nat.le_of_not_lt hblt)]
          exact getD_of_le none _ _ (Nat.le_of_not_lt hblt)
      · rw [setGetD_ne _ _ _ _ _ hbb]
        exact h1 _ hm b' hcov
    · show (((cachedState p bld (rsSet p bld s b)).1.states.getD s default).next.set
        b (cachedState p bld (rsSet p bld s b)).2).getD b' none = none
      rw [hm]
      have hd : (default : St).next = [] := rfl
      rw [hd]
      cases b' <;> rfl
  · exact h1 st h2 b' hcov

theorem buildT_pExampleA_eq :
    buildT pExampleA = some (Except.ok bldExA, [0, 1]) := by decide

theorem buildT_pAStar_eq :
    buildT pAStar = some (Except.ok bldAStar, [0, 0]) := by decide

theorem bld0_binv (p : prog) :
    BInvC (cachedState p ⟨[], []⟩ (dfaAdd p [] 0)).1 :=
  cachedState_inv _ binv_empty

theorem bld0_len_le (p : prog) :
    (cachedState p ⟨[], []⟩ (dfaAdd p [] 0)).1.states.length ≤ 1 := by
  have h := cachedState_len_le p ⟨[], []⟩ (dfaAdd p [] 0)
  simpa using h

theorem buildT_total_spec (p : prog) :
    ∃ r tr, buildT p = some (r, tr) ∧
      (∀ bldE, r = Except.error bldE → bldE.states.length > StateLimit) ∧
      (∀ bldO, r = Except.ok bldO → bldO.states.length ≤ StateLimit) := by
  have hlim : StateLimit = 10000 := rfl
  have hfuel : buildFuel = StateLimit + 3 := rfl
  obtain ⟨r, tr, hloop, he, ho⟩ := buildLoop_spec p buildFuel
    [(cachedState p ⟨[], []⟩ (dfaAdd p [] 0)).2] []
    (cachedState p ⟨[], []⟩ (dfaAdd p [] 0)).1 []
    (bld0_binv p) List.nodup_nil (fun x hx => absurd hx (List.not_mem_nil x))
    (by have := bld0_len_le p; omega)
    (by simp only [List.length_singleton, List.length_nil]; omega)
  exact ⟨r, tr, hloop, he, ho⟩

/-- C1: `build` always terminates with a result; it returns
`ErrTooManyStates` exactly when the number of states discovered so far
exceeds `StateLimit` (the error carries no DFA — its payload here only
records the builder at the abort for specification), and a successful build
returns the completed DFA, whose state count is within the limit. -/
theorem C1_state_limit (p : prog) :
    match build p with
    | some (Except.ok bld) => bld.states.length ≤ StateLimit
    | some (Except.error bldE) => bldE.states.length > StateLimit
    | none => False := by
  obtain ⟨r, tr, hloop, he, ho⟩ := buildT_total_spec p
  have hbuild : build p = some r := by
    rw [build, hloop]
    rfl
  rw [hbuild]
  cases r with
  | ok bldO => exact ho bldO rfl
  | error bldE => exact he bldE rfl

theorem sigPreserved_trans {s1 s2 s3 : List St} (h12 : sigPreserved s1 s2)
    (h23 : sigPreserved s2 s3) : sigPreserved s1 s3 :=
  ⟨le_trans h12.1 h23.1, fun i hi => by
    rw [h23.2 i (lt_of_lt_of_le hi h12.1), h12.2 i hi]⟩

theorem sigPreserved_of_pref {s1 s2 : List St} (h : s1 <+: s2) :
    sigPreserved s1 s2 :=
  ⟨h.length_le, fun i hi => by rw [pref_getD default h hi]⟩

theorem cachedState_sigPreserved (p : prog) (bld : Builder) (set : List Nat) :
    sigPreserved bld.states (cachedState p bld set).1.states :=
  sigPreserved_of_pref (cachedState_states_pref p bld set)

theorem runState_sigPreserved (p : prog) (bld : Builder) (s b : Nat) :
    sigPreserved bld.states (runState p bld s b).1.states :=
  ⟨runState_len_mono p bld s b, fun i hi => by
    rw [runState_getD_insts,
      pref_getD default (cachedState_states_pref p bld (rsSet p bld s b)) hi]⟩

/-- C2: two sets interned by `cachedState` during a build get the same state
index exactly when their ordered significant signatures are equal as lists
(so closures with the same elements in different orders get distinct
states).  The builders at any two intern moments of one build are related by
`sigPreserved` — states are append-only and signatures immutable, though
transition tables are overwritten in place — and the first two conjuncts
show both builder-changing operations establish that relation.  The last
conjunct gives the consequence: in a completed build, distinct state
indices carry distinct signatures, so the state count is the number of
distinct reachable signatures. -/
theorem C2_dedup (p : prog) :
    (∀ bld set, sigPreserved bld.states (cachedState p bld set).1.states) ∧
    (∀ bld s b, sigPreserved bld.states (runState p bld s b).1.states) ∧
    (∀ bld1 bld2 set1 set2 v1 v2, BInvC bld1 → BInvC bld2 →
      sigPreserved (cachedState p bld1 set1).1.states bld2.states →
      (cachedState p bld1 set1).2 = some v1 →
      (cachedState p bld2 set2).2 = some v2 →
      (v1 = v2 ↔ sigInsts p set1 = sigInsts p set2)) ∧
    (∀ bld tr, buildT p = some (Except.ok bld, tr) →
      ∀ i j, i < bld.states.length → j < bld.states.length →
        (bld.states.getD i default).insts = (bld.states.getD j default).insts →
        i = j) := by
  refine ⟨fun bld set => cachedState_sigPreserved p bld set,
    fun bld s b => runState_sigPreserved p bld s b, ?_, ?_⟩
  · intro bld1 bld2 set1 set2 v1 v2 hb1 hb2 hpre12 h1 h2
    have hb2' : BInvC (cachedState p bld2 set2).1 := cachedState_inv _ hb2
    obtain ⟨hv1lt, hv1sig⟩ := cachedState_spec_some hb1 h1
    obtain ⟨hv2lt, hv2sig⟩ := cachedState_spec_some hb2 h2
    have hpre : sigPreserved (cachedState p bld1 set1).1.states
        (cachedState p bld2 set2).1.states :=
      sigPreserved_trans hpre12 (cachedState_sigPreserved p bld2 set2)
    have hv1sig2 : ((cachedState p bld2 set2).1.states.getD v1 default).insts =
        sigInsts p set1 := by
      rw [hpre.2 v1 hv1lt]
      exact hv1sig
    constructor
    · intro heq
      subst heq
      rw [← hv1sig2, ← hv2sig]
    · intro hsig
      have hv1lt2 : v1 < (cachedState p bld2 set2).1.states.length :=
        lt_of_lt_of_le hv1lt hpre.1
      have c1 := hb2'.complete v1 hv1lt2
      have c2 := hb2'.complete v2 hv2lt
      rw [hv1sig2, hsig] at c1
      rw [hv2sig] at c2
      exact assoc_inj hb2'.keysNodup c1 c2
  · intro bld tr hb i j hi hj hins
    have hbinv : BInvC bld := by
      have h := buildLoop_preserves p BInvC (fun bld' s' b' h' => runState_inv s' b' h')
        buildFuel [(cachedState p ⟨[], []⟩ (dfaAdd p [] 0)).2] []
        (cachedState p ⟨[], []⟩ (dfaAdd p [] 0)).1 [] (Except.ok bld) tr
        (bld0_binv p) hb
      exact h
    have c1 := hbinv.complete i hi
    have c2 := hbinv.complete j hj
    rw [hins] at c1
    exact assoc_inj hbinv.keysNodup c1 c2

/-- C2 witness, on the two interns that deduplicate Example B (`a|b`): the
first two conjuncts check (by evaluation) that `bldB1` and `bldB2` are the
genuine builders of that build at its byte-97 and byte-98 interning calls of
state 0, the next two compute the two interned to-sets, the fifth records
that the earlier states list is not a list-prefix of the later one (the
start state's table was overwritten in between), and the last applies the
theorem to this real in-build pair: both sets intern to index 1, their
signatures being equal. -/
theorem C2_dedup_witness :
    (List.range 97).foldlM (stepByte pExB 0)
        ((cachedState pExB ⟨[], []⟩ (dfaAdd pExB [] 0)).1, [], []) =
      Except.ok (bldB1, [], []) ∧
    (List.range 98).foldlM (stepByte pExB 0)
        ((cachedState pExB ⟨[], []⟩ (dfaAdd pExB [] 0)).1, [], []) =
      Except.ok (bldB2, [1], [some 1]) ∧
    rsSet pExB bldB1 0 97 = [2, 4] ∧
    rsSet pExB bldB2 0 98 = [4] ∧
    ¬((cachedState pExB bldB1 [2, 4]).1.states <+: bldB2.states) ∧
    ((1 : Nat) = 1 ↔ sigInsts pExB [2, 4] = sigInsts pExB [4]) :=
  ⟨by decide, by decide, by decide, by decide, by decide,
    (C2_dedup pExB).2.2.1 bldB1 bldB2 [2, 4] [4] 1 1
      ⟨by decide, by decide, by decide⟩ ⟨by decide, by decide, by decide⟩
      ⟨by decide, by decide⟩ (by decide) (by decide)⟩
/-- C6 counterexample: building the `(a)*` program pops state 0 — the start
state — twice from the worklist (pop trace `[0, 0]`): after the first pop
fills all 256 transition slots, byte 97 re-discovers index 0, which was
never recorded as seen, so it is pushed and fully reprocessed.  The claim
that no state, start included, is ever popped again after being fully
processed is false. -/
theorem C6_counterexample :
    (buildT pAStar).map Prod.snd = some [0, 0] ∧
      build pAStar = some (Except.ok bldAStar) ∧
      ¬([0, 0] : List Nat).Nodup := by
  refine ⟨?_, ?_, by decide⟩
  · rw [buildT_pAStar_eq]
    rfl
  · rw [build, buildT_pAStar_eq]
    rfl

/-- C6 amended: each state is popped at most once — except the start state,
which is pushed initially without being recorded in `seen` and can therefore
be re-pushed and reprocessed one extra time when some transition targets it;
so its pop count is at most 2 and every other state's is at most 1. -/
theorem C6_amended (p : prog) (r : Except Builder Builder) (tr : List Nat)
    (h : buildT p = some (r, tr)) (v : Nat) :
    tr.count v ≤ (if startOf p = some v then 1 else 0) + 1 := by
  apply buildLoop_count p buildFuel [startOf p] []
    (cachedState p ⟨[], []⟩ (dfaAdd p [] 0)).1 [] r tr v _ h
  by_cases hs : startOf p = some v
  · simp [hs, List.count_singleton]
  · have h0 : List.count (some v) [startOf p] = 0 :=
      List.count_eq_zero.mpr (by
        intro hc
        exact hs (List.mem_singleton.mp hc).symm)
    simp [h0, hs]

/-- C6 amended witness: in the `(a)*` build the start state 0 is popped
exactly twice, meeting the amended bound. -/
theorem C6_amended_witness :
    ([0, 0] : List Nat).count 0 ≤ (if startOf pAStar = some 0 then 1 else 0) + 1 :=
  C6_amended pAStar (Except.ok bldAStar) [0, 0] buildT_pAStar_eq 0

/-- C7: in a successfully built DFA, a byte covered by no `Range` of a
state's signature has an explicit reject (`none`) entry in that state's
transition table. -/
theorem C7_reject (p : prog) (bld : Builder) (tr : List Nat) (st : St) (b : Nat)
    (h : buildT p = some (Except.ok bld, tr)) (hst : st ∈ bld.states)
    (hcov : coversB p st.insts b = false) :
    st.next.getD b none = none := by
  have hInv : Inv7 p bld := by
    have h0 : Inv7 p (cachedState p ⟨[], []⟩ (dfaAdd p [] 0)).1 :=
      cachedState_inv7 _ (fun st' hst' => absurd hst' (List.not_mem_nil st'))
    have hp := buildLoop_preserves p (fun b' => Inv7 p b')
      (fun bld' s' b' h' => runState_inv7 s' b' h')
      buildFuel [(cachedState p ⟨[], []⟩ (dfaAdd p [] 0)).2] []
      (cachedState p ⟨[], []⟩ (dfaAdd p [] 0)).1 [] (Except.ok bld) tr h0 h
    exact hp
  exact hInv st hst b hcov

/-- C7 witness: in the DFA of `pExampleA`, the accepting state's signature
`[1]` holds no `Range`, and its entry for byte 0 is reject. -/
theorem C7_reject_witness :
    (⟨[1], List.replicate 256 none, true⟩ : St).next.getD 0 none = none :=
  C7_reject pExampleA bldExA [0, 1] ⟨[1], List.replicate 256 none, true⟩ 0
    buildT_pExampleA_eq (by decide) (by decide)

/-- C9: a program whose epsilon closure of instruction 0 holds only
`Jmp`/`Split` instructions builds a DFA with zero states and no error — not
an error and not a start state. -/
theorem C9_no_sig (p : prog)
    (h : ∀ i ∈ dfaAdd p [] 0, (∃ t, p.get? i = some (.OpJmp t)) ∨
      (∃ a b, p.get? i = some (.OpSplit a b))) :
    build p = some (Except.ok ⟨[], []⟩) := by
  have hsig : sigInsts p (dfaAdd p [] 0) = [] := by
    rw [sigInsts_eq_filter, List.filter_eq_nil]
    intro a ha
    rcases h a ha with ⟨t, hg⟩ | ⟨x, y, hg⟩ <;>
      rw [List.get?_eq_getElem?] at hg <;> simp [isSig, hg]
  have hcs : cachedState p ⟨[], []⟩ (dfaAdd p [] 0) = (⟨[], []⟩, none) :=
    cachedState_eq_empty hsig
  have hbt : buildT p = some (Except.ok ⟨[], []⟩, []) := by
    show buildLoop p buildFuel [(cachedState p ⟨[], []⟩ (dfaAdd p [] 0)).2] []
      (cachedState p ⟨[], []⟩ (dfaAdd p [] 0)).1 [] = _
    rw [hcs]
    rfl
  rw [build, hbt]
  rfl

/-- C9 witness: the self-jumping program `[Jmp 0]` (closure `[0]`, no
`Range`/`Match`) builds the empty DFA with no error. -/
theorem C9_no_sig_witness :
    build [inst.OpJmp 0] = some (Except.ok ⟨[], []⟩) :=
  C9_no_sig [inst.OpJmp 0] (fun i hi => by
    have hi0 : i = 0 := by
      have : dfaAdd [inst.OpJmp 0] [] 0 = [0] := by decide
      rw [this] at hi
      simpa using hi
    subst hi0
    exact Or.inl ⟨0, rfl⟩)

/-- C10: the well-formedness invariant — every signature index of every
state is a `Range`/`Match` instruction of the program, and every non-reject
transition entry is a state index below the current state count — holds for
the initial builder, is preserved by every transition-filling step, and
holds for the builder a build ends with (success or abort). -/
theorem C10_wellformed (p : prog) :
    Inv10 p (cachedState p ⟨[], []⟩ (dfaAdd p [] 0)).1 ∧
    (∀ bld s b, BInvC bld → Inv10 p bld → Inv10 p (runState p bld s b).1) ∧
    (∀ r tr, buildT p = some (r, tr) → Inv10 p (resBuilder r)) := by
  have h0 : Inv10 p (cachedState p ⟨[], []⟩ (dfaAdd p [] 0)).1 :=
    cachedState_inv10 _ (fun st' hst' => absurd hst' (List.not_mem_nil st'))
  refine ⟨h0, fun bld s b hb h => runState_inv10 s b hb h, ?_⟩
  intro r tr h
  have hp := buildLoop_preserves p (fun b' => BInvC b' ∧ Inv10 p b')
    (fun bld' s' b' h' => ⟨runState_inv s' b' h'.1, runState_inv10 s' b' h'.1 h'.2⟩)
    buildFuel [(cachedState p ⟨[], []⟩ (dfaAdd p [] 0)).2] []
    (cachedState p ⟨[], []⟩ (dfaAdd p [] 0)).1 [] r tr ⟨bld0_binv p, h0⟩ h
  exact hp.2

/-- C10 witness: applied to the completed build of `pExampleA`, the
invariant certifies that signature index 0 of the start state is a
significant instruction. -/
theorem C10_wellformed_witness : isSig pExampleA 0 = true := by
  have h := (C10_wellformed pExampleA).2.2 (Except.ok bldExA) [0, 1]
    buildT_pExampleA_eq
  exact (h ⟨[0], (List.replicate 256 none).set 97 (some 1), false⟩
    (by decide)).1 0 (by decide)

/-- C8: Example A — `[Range(97,97), Match]` builds successfully; the start
state transitions on byte 97 to a match-flagged state whose 256 entries are
all reject, the start state itself is not match-flagged, and every byte
other than 97 rejects from the start state. -/
theorem C8_exampleA :
    ∃ bld, build pExampleA = some (Except.ok bld) ∧
      bld.states.length = 2 ∧
      (bld.states.getD 0 default).next.getD 97 none = some 1 ∧
      (bld.states.getD 0 default).matchFlag = false ∧
      (bld.states.getD 1 default).matchFlag = true ∧
      (∀ e ∈ (bld.states.getD 1 default).next, e = none) ∧
      (∀ b, b < 256 → b ≠ 97 →
        (bld.states.getD 0 default).next.getD b none = none) := by
  refine ⟨bldExA, ?_, by decide, by decide, by decide, by decide, by decide,
    by decide⟩
  rw [build, buildT_pExampleA_eq]
  rfl
